import Mathlib

/-!
# Verification of the FROST threshold-signature implementation

A shallow embedding of the FROST (RFC 9591 style) Ed25519 threshold
signature implementation (`src/cipher.ts`, `src/keys.ts`, `src/util.ts`,
`src/signing.ts`) and proofs about it.

Modelling conventions:

* A `Scalar` (32 little-endian bytes in the source) is modelled by its
  numeric value, a `Nat` (always `< 2^256`).  The arithmetic functions of
  `Ed25519CipherSuite` convert the bytes to a `BigInt` little-endian,
  operate, and reduce modulo the group order `L`; the model operates on
  the values directly.
* A `GroupElement` of the prime-order subgroup is modelled by its
  discrete logarithm with respect to the base point, a `Nat < L`.  The
  base point is `1`, point addition is addition of logarithms mod `L`,
  and `Point.multiply k` is multiplication of the logarithm by `k`
  mod `L`.  The compressed-point encoding is injective on the subgroup,
  so it is modelled by an (injective) 32-byte encoding of the logarithm;
  hash functions are parameters of the model, so only the fact that the
  same element always hashes the same way matters.
* SHA-512 (`hashToScalar` before the reduction mod `L`) is a parameter
  `H : List Nat → Nat` of every definition that hashes.
* `randomScalar` results (nonces, secret keys, polynomial coefficients)
  are parameters of the model.
* A thrown `Error` is modelled by `Except`/`Option` error results.
-/

namespace Frost

/-- Decidable equality of `Except` results (used to evaluate the model on
concrete inputs). -/
instance instDecEqExcept {ε α : Type _} [DecidableEq ε] [DecidableEq α] :
    DecidableEq (Except ε α) := fun x y =>
  match x, y with
  | .error a, .error b =>
    if h : a = b then isTrue (congrArg Except.error h)
    else isFalse (fun hc => h (Except.error.inj hc))
  | .ok a, .ok b =>
    if h : a = b then isTrue (congrArg Except.ok h)
    else isFalse (fun hc => h (Except.ok.inj hc))
  | .error _, .ok _ => isFalse (fun hc => Except.noConfusion hc)
  | .ok _, .error _ => isFalse (fun hc => Except.noConfusion hc)

/-- The Ed25519 group order `ℓ = 2^252 + 27742317777372353535851937790883648493`,
the constant `order` of `src/cipher.ts`. -/
def L : Nat := 2 ^ 252 + 27742317777372353535851937790883648493

/-- `2^256`: byte-level arithmetic on 32-byte buffers wraps at this bound. -/
def B256 : Nat := 2 ^ 256

/-! ## `src/cipher.ts` — `Ed25519CipherSuite` -/

/-- `Ed25519CipherSuite.hashToScalar`: SHA-512 (the parameter `H`) of the
input, interpreted little-endian, reduced mod `L`. -/
def hashToScalar (H : List Nat → Nat) (data : List Nat) : Nat := H data % L

/-- `Ed25519CipherSuite.scalarAdd`: add and reduce modulo the order. -/
def scalarAdd (a b : Nat) : Nat := (a + b) % L

/-- `Ed25519CipherSuite.scalarMultiplyScalar`: multiply and reduce modulo
the order. -/
def scalarMultiplyScalar (a b : Nat) : Nat := a * b % L

/-- `Ed25519CipherSuite.scalarNegate`: byte-wise subtraction of the scalar
from the 32-byte field order with borrow, i.e. `(L - s) mod 2^256`.
For `s ≤ L` this is `L - s`; for `s > L` the borrow propagates off the
top and the result wraps modulo `2^256`. -/
def scalarNegate (s : Nat) : Nat := (B256 + L - s) % B256

/-- `Ed25519CipherSuite.scalarMultiply` (scalar times group element): the
scalar value is reduced mod the order, *a zero scalar is silently replaced
by `1`* (`if (scalarMod === 0n) scalarMod = 1n`), and the point is
multiplied.  In the discrete-logarithm model multiplication of a subgroup
point by `k` multiplies the logarithm by `k` mod `L`. -/
def scalarMultiply (s P : Nat) : Nat :=
  (if s % L = 0 then 1 else s % L) * P % L

/-- `Ed25519CipherSuite.elementAdd`: point addition; addition of discrete
logarithms mod `L`. -/
def elementAdd (a b : Nat) : Nat := (a + b) % L

/-- `Ed25519CipherSuite.baseElement`: the base point, logarithm `1`. -/
def baseElement : Nat := 1

/-- Little-endian byte list of length `k` of a value. -/
def leBytes : Nat → Nat → List Nat
  | 0, _ => []
  | k + 1, v => v % 256 :: leBytes k (v / 256)

/-- `Ed25519CipherSuite.elementToBytes`: the 32-byte compressed-point
encoding, modelled by an injective 32-byte encoding of the logarithm. -/
def elementToBytes (P : Nat) : List Nat := leBytes 32 P

/-- `Ed25519CipherSuite.scalarToBytes`: the 32 little-endian bytes. -/
def scalarToBytes (s : Nat) : List Nat := leBytes 32 s

/-- The body of the `while` loop of `modInverse` in
`Ed25519CipherSuite.scalarInvert` (extended Euclidean algorithm on
`(g0, g1)` with the Bézout coefficients `(u0, u1)` for `a`).  The loop
runs until `g1 = 0`; `fuel` dominates the iteration count (`g1` strictly
decreases, so `g1 < fuel` iterations always suffice) and is never
exhausted when the function is called by `modInverse` below.  On exit the
source throws unless `g0 = 1`, and returns `(u0 % m + m) % m`. -/
def modInverseGo (m : Int) : Nat → Int → Int → Int → Int → Option Int
  | 0, _, _, _, _ => none
  | fuel + 1, g0, g1, u0, u1 =>
    if g1 = 0 then
      if g0 = 1 then some ((u0 % m + m) % m) else none
    else
      modInverseGo m fuel g1 (g0 - g0 / g1 * g1) u1 (u0 - g0 / g1 * u1)

/-- `modInverse(a, m)` of `Ed25519CipherSuite.scalarInvert`: extended
Euclidean algorithm starting from `g0 = m, g1 = a, u0 = 0, u1 = 1`;
`none` models the `'Scalar is not invertible'` throw. -/
def modInverse (a m : Nat) : Option Int :=
  modInverseGo m (a + 2) m a 0 1

/-- `Ed25519CipherSuite.scalarInvert`: throws on the zero scalar, then
runs `modInverse` modulo the order. -/
def scalarInvert (s : Nat) : Option Nat :=
  if s = 0 then none
  else (modInverse s L).map Int.toNat

/-! ## `src/util.ts` — encodings and derivations -/

/-- ASCII decimal digits of `n`, most significant first (`fuel` bounds the
digit count; it is always sufficient). -/
def decAsciiGo : Nat → Nat → List Nat
  | 0, _ => []
  | _ + 1, 0 => []
  | fuel + 1, n => decAsciiGo fuel (n / 10) ++ [n % 10 + 48]

/-- `id.toString()` encoded with `TextEncoder`: the ASCII decimal digits
of the participant id. -/
def asciiDecimal (n : Nat) : List Nat :=
  if n = 0 then [48] else decAsciiGo (n + 1) n

/-- A 4-byte big-endian encoding (`DataView.setUint32(…, false)`). -/
def be32 (v : Nat) : List Nat :=
  [v / 2 ^ 24 % 256, v / 2 ^ 16 % 256, v / 2 ^ 8 % 256, v % 256]

/-- `encodeGroupCommitmentList`: for each index `i`, concatenate the
length byte of the ASCII id, the ASCII id, the 4-byte big-endian length
of the commitment bytes and the commitment bytes, in the order the lists
were given (no sorting). -/
def encodeGroupCommitmentList (ids : List Nat) (cs : List (List Nat)) : List Nat :=
  (ids.zip cs).foldl
    (fun acc p =>
      acc ++ [(asciiDecimal p.1).length] ++ asciiDecimal p.1
          ++ be32 p.2.length ++ p.2)
    []

/-- `scalarFromInt` of `src/util.ts`/`src/keys.ts`: write the 32-bit value
big-endian into bytes 28–31 of a zeroed 32-byte buffer.  Interpreted
little-endian (as every arithmetic routine does), the resulting value is
`(v>>>24 & 255)·2^224 + (v>>>16 & 255)·2^232 + (v>>>8 & 255)·2^240 + (v & 255)·2^248`;
in particular `scalarFromInt v = v · 2^248` for `v < 256`. -/
def scalarFromInt (v : Nat) : Nat :=
  v / 2 ^ 24 % 256 * 2 ^ 224 + v / 2 ^ 16 % 256 * 2 ^ 232
    + v / 2 ^ 8 % 256 * 2 ^ 240 + v % 256 * 2 ^ 248

/-- `scalarSubtract` of `src/util.ts`: negate then add. -/
def scalarSubtract (a b : Nat) : Nat := scalarAdd a (scalarNegate b)

/-- The byte string hashed by `computeBindingFactor` of `src/util.ts`:
ASCII participant id ‖ verifying key bytes ‖ encoded commitment list ‖
message.  (There is no domain-separation prefix.) -/
def bindingFactorInput (id : Nat) (verifyingKey commitmentList message : List Nat) :
    List Nat :=
  asciiDecimal id ++ verifyingKey ++ commitmentList ++ message

/-- `computeBindingFactor` of `src/util.ts`: hash the concatenation and
reduce mod `L`. -/
def computeBindingFactor (H : List Nat → Nat) (id : Nat)
    (verifyingKey commitmentList message : List Nat) : Nat :=
  hashToScalar H (bindingFactorInput id verifyingKey commitmentList message)

/-- `computeChallenge` of `src/util.ts`:
`H(encode(R) ‖ encode(PK) ‖ message) mod L`. -/
def computeChallenge (H : List Nat → Nat)
    (groupCommitment verifyingKey message : List Nat) : Nat :=
  hashToScalar H (groupCommitment ++ verifyingKey ++ message)

/-- The accumulation loop of `deriveInterpolatingValue` of `src/util.ts`:
both accumulators start at `scalarFromInt 1`; for every other signer id
`j ≠ pid` the numerator is multiplied by `scalarFromInt j` and the
denominator by `scalarSubtract (scalarFromInt j) (scalarFromInt pid)`. -/
def deriveNumDen (pid : Nat) (signerIds : List Nat) : Nat × Nat :=
  signerIds.foldl
    (fun (nd : Nat × Nat) j =>
      if j ≠ pid then
        (scalarMultiplyScalar nd.1 (scalarFromInt j),
         scalarMultiplyScalar nd.2 (scalarSubtract (scalarFromInt j) (scalarFromInt pid)))
      else nd)
    (scalarFromInt 1, scalarFromInt 1)

/-- `deriveInterpolatingValue` of `src/util.ts`: the Lagrange coefficient
at zero — numerator times the inverse of the denominator (`none` models
the throw inside `scalarInvert`). -/
def deriveInterpolatingValue (pid : Nat) (signerIds : List Nat) : Option Nat :=
  (scalarInvert (deriveNumDen pid signerIds).2).map
    (fun dInv => scalarMultiplyScalar (deriveNumDen pid signerIds).1 dInv)

/-! ## `src/keys.ts` — key generation, split, recover -/

/-- The loop of `evaluatePolynomial`: accumulate
`acc + cᵢ · xPowᵢ (mod L)` where `xPow` is multiplied by
`scalarFromInt x` between iterations. -/
def evalPolyGo (xBase : Nat) : Nat → Nat → List Nat → Nat
  | acc, _, [] => acc
  | acc, xPow, c :: rest =>
    evalPolyGo xBase (scalarAdd acc (scalarMultiplyScalar c xPow))
      (scalarMultiplyScalar xPow xBase) rest

/-- `evaluatePolynomial` of `src/keys.ts`: Σ cᵢ · (scalarFromInt x)^i with
the arithmetic of the cipher suite.  The constant term is *not* reduced
when there are no further coefficients, exactly as in the source (the
result starts as `coefficients[0]`). -/
def evaluatePolynomial (coeffs : List Nat) (x : Nat) : Nat :=
  match coeffs with
  | [] => 0
  | c0 :: rest => evalPolyGo (scalarFromInt x) c0 (scalarFromInt x) rest

/-- A key package as far as the signing and recovery paths consume it:
the participant id and the private share
(`keyPackage.participantId.id` / `keyPackage.keyShare.privateShare`). -/
structure KeyPackage where
  participantId : Nat
  privateShare : Nat
deriving DecidableEq, Repr

/-- One key package produced by `generateKeys`/`split` of `src/keys.ts`
for participant `id`, with secret `sk` and the random higher coefficients
`rand` of the Shamir polynomial: the private share is the polynomial
evaluated at the participant id. -/
def makeKeyPackage (sk : Nat) (rand : List Nat) (id : Nat) : KeyPackage :=
  ⟨id, evaluatePolynomial (sk :: rand) id⟩

/-- The full package list of `generateKeys`/`split`: participants `1…n`. -/
def splitPackages (sk : Nat) (rand : List Nat) (n : Nat) : List KeyPackage :=
  (List.range n).map (fun k => makeKeyPackage sk rand (k + 1))

/-- `groupPublicKey` as computed by `generateKeys`/`split`:
`scalarMultiply(secretKey, baseElement)`. -/
def groupPublicKey (sk : Nat) : Nat := scalarMultiply sk baseElement

/-- Error kinds thrown by `recover` of `src/keys.ts`. -/
inductive RecoverError
  | insufficientShares
  | notInvertible
deriving DecidableEq, Repr

/-- The numerator loop of `recover` for the share at index `i`:
`∏_{j ≠ i} scalarNegate (scalarFromInt x_j)` starting from
`scalarFromInt 1` (indices are compared, not ids). -/
def recoverNum (ids : List Nat) (i : Nat) : Nat :=
  ids.enum.foldl
    (fun acc p =>
      if p.1 = i then acc
      else scalarMultiplyScalar acc (scalarNegate (scalarFromInt p.2)))
    (scalarFromInt 1)

/-- The denominator loop of `recover` for the share at index `i` with id
`xi`: `∏_{j ≠ i} (scalarFromInt xi + scalarNegate (scalarFromInt x_j)) mod L`
starting from `scalarFromInt 1`. -/
def recoverDen (ids : List Nat) (i xi : Nat) : Nat :=
  ids.enum.foldl
    (fun acc p =>
      if p.1 = i then acc
      else scalarMultiplyScalar acc
        (scalarAdd (scalarFromInt xi) (scalarNegate (scalarFromInt p.2))))
    (scalarFromInt 1)

/-- The accumulation loop of `recover`: for the share at index `i`, add
`privateShare · (numerator · denominator⁻¹) (mod L)` to the secret. -/
def recoverGo (ids : List Nat) : Nat → Nat → List KeyPackage → Except RecoverError Nat
  | _, acc, [] => .ok acc
  | i, acc, kp :: rest =>
    match scalarInvert (recoverDen ids i kp.participantId) with
    | none => .error .notInvertible
    | some dInv =>
      recoverGo ids (i + 1)
        (scalarAdd acc
          (scalarMultiplyScalar kp.privateShare
            (scalarMultiplyScalar (recoverNum ids i) dInv)))
        rest

/-- `recover` of `src/keys.ts`: require at least `minSigners` packages,
use the *first* `minSigners` of them, and interpolate at zero. -/
def recover (kps : List KeyPackage) (minSigners : Nat) : Except RecoverError Nat :=
  if kps.length < minSigners then .error .insufficientShares
  else
    recoverGo ((kps.take minSigners).map (·.participantId)) 0 0 (kps.take minSigners)

/-! ## `src/signing.ts` — signer and coordinator -/

/-- Error kinds thrown along the signing path of `src/signing.ts`
(`FrostSigner.sign_round2`, `FrostCoordinator.createSigningPackage`,
`FrostCoordinator.aggregateSignatures`, `thresholdSign`). -/
inductive SignError
  | insufficientSigners
  | mismatchedCommitments
  | missingCommitment
  | emptyCommitments
  | missingBindingFactor
  | notAParticipant
  | notInvertible
  | insufficientShares
  | missingShare
  | emptyShares
deriving DecidableEq, Repr

/-- A `CommitmentShare`: participant id with the hiding and binding
commitment elements. -/
structure CommitmentShare where
  participantId : Nat
  hidingCommitment : Nat
  bindingCommitment : Nat
deriving DecidableEq, Repr

/-- A `SigningPackage` (its `GroupCommitment` inlined): the participant
ids, the message, the group commitment `R` and the binding-factor map
(modelled as an association list in insertion order). -/
structure SigningPackage where
  participantIds : List Nat
  message : List Nat
  commitment : Nat
  bindingFactors : List (Nat × Nat)
deriving DecidableEq, Repr

/-- `FrostSigner.sign_round1` with the sampled nonces `(d, e)` made
explicit: the commitment is `(d·G, e·G)`. -/
def sign_round1 (nonces : Nat × Nat) : Nat × Nat :=
  (scalarMultiply nonces.1 baseElement, scalarMultiply nonces.2 baseElement)

/-- The group-commitment loop of
`FrostCoordinator.computeGroupCommitment`: starting from the first
share's `hiding + ρ·binding`, add every further share's
`hiding + ρ·binding`, looking each binding factor up by participant id. -/
def groupCommitmentLoop (bf : List (Nat × Nat)) :
    Nat → List CommitmentShare → Except SignError Nat
  | acc, [] => .ok acc
  | acc, s :: rest =>
    match bf.lookup s.participantId with
    | none => .error .missingBindingFactor
    | some rho =>
      groupCommitmentLoop bf
        (elementAdd acc (elementAdd s.hidingCommitment (scalarMultiply rho s.bindingCommitment))) rest

/-- `FrostCoordinator.computeGroupCommitment`, commitment part: the sum
`Σ (Dᵢ + ρᵢ·Eᵢ)` over the commitment shares in their given order. -/
def computeGroupCommitmentR (bf : List (Nat × Nat)) :
    List CommitmentShare → Except SignError Nat
  | [] => .error .emptyCommitments
  | s :: rest =>
    match bf.lookup s.participantId with
    | none => .error .missingBindingFactor
    | some rho =>
      groupCommitmentLoop bf
        (elementAdd s.hidingCommitment (scalarMultiply rho s.bindingCommitment)) rest

/-- The byte strings `D ‖ E` passed by
`FrostCoordinator.computeGroupCommitment` to `encodeGroupCommitmentList`,
one per commitment share, in the given order. -/
def commitmentListBytes (commitmentShares : List CommitmentShare) : List (List Nat) :=
  commitmentShares.map
    (fun s => elementToBytes s.hidingCommitment ++ elementToBytes s.bindingCommitment)

/-- The binding-factor map built by
`FrostCoordinator.computeGroupCommitment`: one entry per participant id,
in the given order, each hashing the id, the verifying-key bytes, the
encoded commitment list and the message. -/
def bindingFactorsFor (H : List Nat → Nat) (message : List Nat)
    (commitmentShares : List CommitmentShare) (participantIds : List Nat)
    (PK : Nat) : List (Nat × Nat) :=
  participantIds.map
    (fun id => (id, computeBindingFactor H id (elementToBytes PK)
      (encodeGroupCommitmentList participantIds (commitmentListBytes commitmentShares))
      message))

/-- `FrostCoordinator.createSigningPackage`: validate counts and
commitment coverage, encode the commitment list in the *given* order,
derive a binding factor per participant id, compute the group commitment
and return the package.  No sorting and no commitment validation is
performed. -/
def createSigningPackage (H : List Nat → Nat) (message : List Nat)
    (commitmentShares : List CommitmentShare) (participantIds : List Nat)
    (PK : Nat) (minSigners : Nat) : Except SignError SigningPackage :=
  if participantIds.length < minSigners then .error .insufficientSigners
  else if commitmentShares.length ≠ participantIds.length then
    .error .mismatchedCommitments
  else if participantIds.any
      (fun id => ¬ commitmentShares.any (fun s => s.participantId = id)) then
    .error .missingCommitment
  else
    match computeGroupCommitmentR
        (bindingFactorsFor H message commitmentShares participantIds PK)
        commitmentShares with
    | .error e => .error e
    | .ok R =>
      .ok ⟨participantIds, message, R,
        bindingFactorsFor H message commitmentShares participantIds PK⟩

/-- `FrostSigner.sign_round2`: check membership, look up the binding
factor, derive the Lagrange coefficient, compute the challenge and return
`(id, d + e·ρ + (λ·s)·c mod L)`. -/
def sign_round2 (H : List Nat → Nat) (kp : KeyPackage) (pkg : SigningPackage)
    (nonces : Nat × Nat) (PK : Nat) : Except SignError (Nat × Nat) :=
  if ¬ pkg.participantIds.any (fun id => id = kp.participantId) then
    .error .notAParticipant
  else
    match pkg.bindingFactors.lookup kp.participantId with
    | none => .error .missingBindingFactor
    | some rho =>
      match deriveInterpolatingValue kp.participantId pkg.participantIds with
      | none => .error .notInvertible
      | some lam =>
        let c := computeChallenge H (elementToBytes pkg.commitment)
          (elementToBytes PK) pkg.message
        let bindingTerm := scalarMultiplyScalar nonces.2 rho
        let keyTerm := scalarMultiplyScalar (scalarMultiplyScalar lam kp.privateShare) c
        .ok (kp.participantId, scalarAdd (scalarAdd nonces.1 bindingTerm) keyTerm)

/-- `FrostCoordinator.aggregateSignatures`: require at least `minSigners`
shares and a share for every expected participant (shares from ids *not*
in the package are not rejected), then sum *all* the shares mod `L` and
return `(R, z)` — the two 32-byte halves of the 64-byte signature. -/
def aggregateSignatures (pkg : SigningPackage) (shares : List (Nat × Nat))
    (minSigners : Nat) : Except SignError (Nat × Nat) :=
  if shares.length < minSigners then .error .insufficientShares
  else if pkg.participantIds.any
      (fun id => ¬ shares.any (fun s => s.1 = id)) then
    .error .missingShare
  else
    match shares with
    | [] => .error .emptyShares
    | s0 :: rest => .ok (pkg.commitment, rest.foldl (fun z s => scalarAdd z s.2) s0.2)

/-- `FrostCoordinator.verify` on a signature already split into its two
32-byte halves `R` (a subgroup element in the model) and `z` (an
arbitrary value `< 2^256`; `bytesToScalar` performs no canonicality
check): recompute the challenge and compare the encodings of `z·G` and
`R + c·PK`. -/
def verify (H : List Nat → Nat) (R z : Nat) (message : List Nat) (PK : Nat) : Bool :=
  let c := computeChallenge H (elementToBytes R) (elementToBytes PK) message
  let leftSide := scalarMultiply z baseElement
  let rightSide := elementAdd R (scalarMultiply c PK)
  elementToBytes leftSide == elementToBytes rightSide

/-- The `Promise.all(signers.map(sign_round2 …))` step of
`thresholdSign`: collect the round-2 shares, failing on the first error. -/
def roundTwoAll (H : List Nat → Nat) (pkg : SigningPackage) (PK : Nat) :
    List (KeyPackage × (Nat × Nat)) → Except SignError (List (Nat × Nat))
  | [] => .ok []
  | p :: rest =>
    match sign_round2 H p.1 pkg p.2 PK with
    | .error e => .error e
    | .ok s =>
      match roundTwoAll H pkg PK rest with
      | .error e => .error e
      | .ok ss => .ok (s :: ss)

/-- `thresholdSign` of `src/keys.ts` with the sampled round-1 nonces made
explicit (one `(d, e)` pair per key package): run round 1 for every
signer, create the signing package, run round 2 for every signer and
aggregate. -/
def thresholdSign (H : List Nat → Nat) (kps : List KeyPackage)
    (message : List Nat) (PK : Nat) (minSigners : Nat)
    (nonces : List (Nat × Nat)) : Except SignError (Nat × Nat) :=
  if kps.length < minSigners then .error .insufficientSigners
  else
    let pairs := kps.zip nonces
    let commitmentShares := pairs.map
      (fun p => CommitmentShare.mk p.1.participantId (sign_round1 p.2).1 (sign_round1 p.2).2)
    match createSigningPackage H message commitmentShares
        (kps.map (·.participantId)) PK minSigners with
    | .error e => .error e
    | .ok pkg =>
      match roundTwoAll H pkg PK pairs with
      | .error e => .error e
      | .ok shares => aggregateSignatures pkg shares minSigners

/-- The constant-`1` stand-in for SHA-512 used in concrete evaluations:
every hash call returns the scalar `1`. -/
def constHash : List Nat → Nat := fun _ => 1

/-- The value of the aggregation loop of
`FrostCoordinator.aggregateSignatures`: the sum mod `L` of *all* supplied
shares (`0` for the impossible empty list). -/
def sumShares : List (Nat × Nat) → Nat
  | [] => 0
  | s :: rest => rest.foldl (fun z s => scalarAdd z s.2) s.2

/-! ## Proof-scaffolding values

Named forms of values the code computes, used to state the
characterisation lemmas below. -/

/-- The node of the Shamir polynomial for participant `v`, as an element
of `ZMod L`: the value of `scalarFromInt v` reduced mod `ℓ`. -/
def xbar (v : Nat) : ZMod L := ((scalarFromInt v : Nat) : ZMod L)

/-- The Lagrange numerator of `recover` for the share with id `a`, keyed
by id (equal to the index-keyed `recoverNum` when `ids` has no
duplicates): `scalarFromInt 1 · ∏_{j ≠ a} scalarNegate (scalarFromInt j)`
mod `L`. -/
def recNum (ids : List Nat) (a : Nat) : Nat :=
  (ids.erase a).foldl
    (fun acc j => scalarMultiplyScalar acc (scalarNegate (scalarFromInt j)))
    (scalarFromInt 1)

/-- The Lagrange denominator of `recover` for the share with id `a`, keyed
by id: `scalarFromInt 1 · ∏_{j ≠ a} (scalarFromInt a - scalarFromInt j)`
mod `L`. -/
def recDen (ids : List Nat) (a : Nat) : Nat :=
  (ids.erase a).foldl
    (fun acc j => scalarMultiplyScalar acc
      (scalarAdd (scalarFromInt a) (scalarNegate (scalarFromInt j))))
    (scalarFromInt 1)

/-- The polynomial with the given coefficient list (constant term
first). -/
noncomputable def polyOfCoeffs {R : Type} [CommRing R] : List R → Polynomial R
  | [] => 0
  | c :: rest => Polynomial.C c + Polynomial.X * polyOfCoeffs rest

/-- The inverse used to state the `recover` Lagrange terms: the
`scalarInvert` of the recover denominator, scaled by `2^248` and the sign
of the numerator orientation. -/
noncomputable def recInvF (ids : List Nat) (a : Nat) : ZMod L :=
  (-1 : ZMod L) ^ (ids.length - 1) *
    ((2 ^ 248 * (scalarInvert (recDen ids a)).getD 0 : Nat) : ZMod L)

/-- `L` is greater than 1 (so `ZMod L` is a nontrivial commutative ring). -/
instance instFactOneLtL : Fact (1 < L) := ⟨by decide⟩

end Frost

namespace Frost

set_option maxRecDepth 400000

/-! ## Auxiliary lemmas: the extended Euclidean inverse -/

theorem modInverseGo_ok (m a : Nat) (hm : 1 < m) :
    ∀ (fuel n0 n1 : Nat) (u0 u1 : Int), n1 < fuel → 0 < n0 →
      Int.ModEq m (a * u0) n0 → Int.ModEq m (a * u1) n1 → Nat.gcd n0 n1 = 1 →
      ∃ u : Int, modInverseGo (m : Int) fuel (n0 : Int) (n1 : Int) u0 u1 = some u ∧
        0 ≤ u ∧ u < (m : Int) ∧ Int.ModEq m (a * u) 1 := by
  intro fuel
  induction fuel with
  | zero => intro n0 n1 u0 u1 h1; omega
  | succ fuel ih =>
    intro n0 n1 u0 u1 hfuel hn0 hc0 hc1 hgcd
    match n1, hfuel with
    | 0, _ =>
      have hg0 : n0 = 1 := by
        have := hgcd
        rwa [Nat.gcd_zero_right] at this
      subst hg0
      refine ⟨(u0 % m + m) % m, ?_, ?_, ?_, ?_⟩
      · simp [modInverseGo]
      · exact Int.emod_nonneg _ (by positivity)
      · exact Int.emod_lt_of_pos _ (by positivity)
      · have he : (u0 % m + m) % m = u0 % m := by
          have := Int.add_mul_emod_self_left (u0 % m) m 1
          simpa using this
        rw [he]
        have h1 : Int.ModEq m (u0 % m) u0 := Int.emod_emod u0 m
        have h2 : Int.ModEq m (a * (u0 % m)) (a * u0) := Int.ModEq.mul_left a h1
        exact h2.trans (by simpa using hc0)
    | n1 + 1, hfuel =>
      have hn1 : (0 : Nat) < n1 + 1 := Nat.succ_pos n1
      have hne : ((n1 + 1 : Nat) : Int) ≠ 0 := by exact_mod_cast (Nat.succ_ne_zero n1)
      have hstep : modInverseGo (m : Int) (fuel + 1) (n0 : Int) ((n1 + 1 : Nat) : Int) u0 u1 =
          modInverseGo (m : Int) fuel ((n1 + 1 : Nat) : Int)
            ((n0 : Int) - (n0 : Int) / ((n1 + 1 : Nat) : Int) * ((n1 + 1 : Nat) : Int))
            u1 (u0 - (n0 : Int) / ((n1 + 1 : Nat) : Int) * u1) := by
        rw [modInverseGo]
        rw [if_neg hne]
      have hq : (n0 : Int) - (n0 : Int) / ((n1 + 1 : Nat) : Int) * ((n1 + 1 : Nat) : Int) =
          ((n0 % (n1 + 1) : Nat) : Int) := by
        rw [mul_comm, ← Int.emod_def]
        exact (Int.natCast_mod n0 (n1 + 1)).symm
      rw [hstep, hq]
      have hgcd' : Nat.gcd (n1 + 1) (n0 % (n1 + 1)) = 1 := by
        rw [Nat.gcd_comm, ← Nat.gcd_rec, Nat.gcd_comm]
        exact hgcd
      have hmod : n0 % (n1 + 1) < fuel :=
        lt_of_lt_of_le (Nat.mod_lt n0 hn1) (by omega)
      have hc1' : Int.ModEq m (a * (u0 - (n0 : Int) / ((n1 + 1 : Nat) : Int) * u1))
          ((n0 % (n1 + 1) : Nat) : Int) := by
        have h3 := Int.ModEq.sub hc0 (Int.ModEq.mul_left ((n0 : Int) / ((n1 + 1 : Nat) : Int)) hc1)
        have h4 : (a : Int) * u0 - (n0 : Int) / ((n1 + 1 : Nat) : Int) * ((a : Int) * u1) =
            a * (u0 - (n0 : Int) / ((n1 + 1 : Nat) : Int) * u1) := by ring
        rw [h4] at h3
        refine h3.trans ?_
        rw [← hq]
      exact ih (n1 + 1) (n0 % (n1 + 1)) u1 _ hmod hn1 hc1 hc1' hgcd'

theorem modInverse_ok (a m : Nat) (hm : 1 < m) (h : Nat.gcd m a = 1) :
    ∃ r : Nat, modInverse a m = some (r : Int) ∧ r < m ∧ a * r % m = 1 := by
  have e0 : Int.ModEq m (a * 0) m := by
    show (a : Int) * 0 % m = (m : Int) % m
    simp
  have e1 : Int.ModEq m (a * 1) a := by
    show (a : Int) * 1 % m = (a : Int) % m
    simp
  obtain ⟨u, hu, hu0, hum, hmod⟩ :=
    modInverseGo_ok m a hm (a + 2) m a 0 1 (by omega) (by omega) e0 e1 h
  refine ⟨u.toNat, ?_, ?_, ?_⟩
  · rw [modInverse, hu, Int.toNat_of_nonneg hu0]
  · exact_mod_cast (Int.toNat_of_nonneg hu0) ▸ hum
  · have h1 : ((a * u.toNat : Nat) : Int) % (m : Int) = 1 % (m : Int) := by
      push_cast
      rw [Int.toNat_of_nonneg hu0]
      exact hmod
    have h2 : (1 : Int) % (m : Int) = 1 := Int.emod_eq_of_lt (by omega) (by exact_mod_cast hm)
    rw [h2] at h1
    exact_mod_cast h1

theorem scalarInvert_ok (s : Nat) (h : Nat.gcd L s = 1) :
    ∃ r : Nat, scalarInvert s = some r ∧ r < L ∧ s * r % L = 1 := by
  have hs : s ≠ 0 := by
    intro hz
    subst hz
    rw [Nat.gcd_zero_right] at h
    exact absurd h (by decide)
  obtain ⟨r, hr, hrm, hmod⟩ := modInverse_ok s L (by decide) h
  refine ⟨r, ?_, hrm, hmod⟩
  rw [scalarInvert, if_neg hs, hr]
  simp

/-! ## Auxiliary lemmas: Lagrange interpolation over a commutative ring -/

open Polynomial

variable {R : Type} [CommRing R]

/-- In `WithBot ℕ`, being below `n + 1` means being at most `n`. -/
theorem withBot_le_of_lt_succ {a : WithBot Nat} {n : Nat}
    (h : a < ((n + 1 : Nat) : WithBot Nat)) : a ≤ (n : WithBot Nat) := by
  cases a using WithBot.recBotCoe with
  | bot => exact bot_le
  | coe k =>
    have hk : k < n + 1 := WithBot.coe_lt_coe.mp h
    exact WithBot.coe_le_coe.mpr (Nat.lt_succ_iff.mp hk)

/-- The degree of a list sum is below `n` when every summand's is. -/
theorem degree_list_sum_lt (n : Nat) :
    ∀ l : List (Polynomial R), (∀ p ∈ l, p.degree < (n : WithBot Nat)) →
      l.sum.degree < (n : WithBot Nat) := by
  intro l
  induction l with
  | nil =>
    intro _
    simp only [List.sum_nil, degree_zero]
    exact WithBot.bot_lt_coe n
  | cons p rest ih =>
    intro h
    have h1 : p.degree < (n : WithBot Nat) := h p (List.mem_cons_self p rest)
    have h2 : rest.sum.degree < (n : WithBot Nat) :=
      ih (fun q hq => h q (List.mem_cons_of_mem p hq))
    calc (p :: rest).sum.degree = (p + rest.sum).degree := by rw [List.sum_cons]
    _ ≤ max p.degree rest.sum.degree := degree_add_le _ _
    _ < (n : WithBot Nat) := max_lt h1 h2

/-- A product of monic linear factors is monic. -/
theorem monic_linear_prod (l : List R) :
    ((l.map (fun b => X - C b)).prod).Monic := by
  induction l with
  | nil => simpa using monic_one
  | cons b rest ih =>
    rw [List.map_cons, List.prod_cons]
    exact (monic_X_sub_C b).mul ih

/-- The natural degree of a product of `n` monic linear factors is `n`. -/
theorem natDegree_linear_prod [Nontrivial R] (l : List R) :
    ((l.map (fun b => X - C b)).prod).natDegree = l.length := by
  induction l with
  | nil => simp
  | cons b rest ih =>
    rw [List.map_cons, List.prod_cons,
      (monic_X_sub_C b).natDegree_mul (monic_linear_prod rest),
      natDegree_X_sub_C, ih, List.length_cons, Nat.add_comm]

/-- Pulling negations out of a product over a list. -/
theorem prod_map_neg {α : Type} (l : List α) (g : α → R) :
    (l.map (fun b => -(g b))).prod = (-1) ^ l.length * (l.map g).prod := by
  induction l with
  | nil => simp
  | cons b rest ih =>
    simp only [List.map_cons, List.prod_cons, List.length_cons, ih]
    ring

/-- Extracting the factor of a member from a product over a list. -/
theorem prod_map_extract {α : Type} [DecidableEq α] (l : List α) (g : α → R)
    {b : α} (hb : b ∈ l) :
    (l.map g).prod = g b * ((l.erase b).map g).prod := by
  have hp : l.Perm (b :: l.erase b) := List.perm_cons_erase hb
  rw [(hp.map g).prod_eq, List.map_cons, List.prod_cons]

/-- The sum over a duplicate-free list of a function vanishing away from
one member is that member's value. -/
theorem sum_map_single {α : Type} (l : List α) (g : α → R) (a : α)
    (ha : a ∈ l) (hnd : l.Nodup) (h0 : ∀ b ∈ l, b ≠ a → g b = 0) :
    (l.map g).sum = g a := by
  induction l with
  | nil => cases ha
  | cons b rest ih =>
    rw [List.map_cons, List.sum_cons]
    rcases List.mem_cons.mp ha with hba | harest
    · subst hba
      have hz : (rest.map g).sum = 0 := by
        apply List.sum_eq_zero
        intro v hv
        obtain ⟨c, hc, hcv⟩ := List.mem_map.mp hv
        rw [← hcv]
        exact h0 c (List.mem_cons_of_mem _ hc)
          (fun hca => (List.nodup_cons.mp hnd).1 (hca ▸ hc))
      rw [hz, add_zero]
    · have hba : b ≠ a := fun hba => (List.nodup_cons.mp hnd).1 (hba ▸ harest)
      rw [h0 b (List.mem_cons_self b rest) hba, zero_add]
      exact ih harest (List.nodup_cons.mp hnd).2
        (fun c hc => h0 c (List.mem_cons_of_mem _ hc))

/-- A polynomial of degree less than the number of points that vanishes at
every point of a duplicate-free list whose pairwise differences are units
is the zero polynomial. -/
theorem vanish_of_roots [Nontrivial R] (pts : List R) :
    ∀ p : Polynomial R, pts.Pairwise (fun a b => IsUnit (a - b)) →
      p.degree < (pts.length : WithBot Nat) → (∀ a ∈ pts, p.eval a = 0) → p = 0 := by
  induction pts with
  | nil =>
    intro p _ hdeg _
    by_contra hp
    exact absurd (lt_of_le_of_lt (zero_le_degree_iff.mpr hp) hdeg) (by simp)
  | cons a rest ih =>
    intro p hpw hdeg hroots
    by_cases hp : p = 0
    · exact hp
    have hmon : (X - C a).Monic := monic_X_sub_C a
    have hmodz : p %ₘ (X - C a) = 0 := by
      rw [modByMonic_X_sub_C_eq_C_eval, hroots a (List.mem_cons_self a rest), map_zero]
    have hfac : p = (X - C a) * (p /ₘ (X - C a)) := by
      have := modByMonic_add_div p hmon
      rw [hmodz, zero_add] at this
      exact this.symm
    set q := p /ₘ (X - C a) with hq
    have hqroots : ∀ b ∈ rest, q.eval b = 0 := by
      intro b hb
      have hev : p.eval b = (b - a) * q.eval b := by
        conv_lhs => rw [hfac]
        simp
      have hunit : IsUnit (a - b) := (List.pairwise_cons.mp hpw).1 b hb
      have hunit' : IsUnit (b - a) := by
        have := hunit.neg
        rwa [neg_sub] at this
      have h0 : (b - a) * q.eval b = 0 := by
        rw [← hev]; exact hroots b (List.mem_cons_of_mem a hb)
      exact (hunit'.mul_right_eq_zero).mp h0
    have hqdeg : q.degree < (rest.length : WithBot Nat) := by
      have hlt : q.degree < p.degree :=
        degree_divByMonic_lt p hmon hp (by rw [degree_X_sub_C]; exact zero_lt_one)
      have hle : p.degree ≤ (rest.length : WithBot Nat) := by
        apply withBot_le_of_lt_succ
        simpa [List.length_cons] using hdeg
      exact lt_of_lt_of_le hlt hle
    have hq0 : q = 0 := ih q (List.pairwise_cons.mp hpw).2 hqdeg hqroots
    rw [hfac, hq0, mul_zero]

/-- Lagrange interpolation at zero over a commutative ring, in the shape
computed by `deriveInterpolatingValue` and `recover`: if `inv a` is an
inverse of `∏_{b ≠ a} (x_b - x_a)`, then
`Σ_a f(x_a) · (∏_{b ≠ a} x_b) · inv a = f(0)` for every polynomial `f` of
degree less than the number of nodes. -/
theorem lagrange_interpolation [Nontrivial R]
    (ids : List Nat) (x : Nat → R) (inv : Nat → R)
    (hnd : ids.Nodup)
    (hxinj : ∀ a ∈ ids, ∀ b ∈ ids, x a = x b → a = b)
    (hinv : ∀ a ∈ ids, (((ids.erase a).map (fun b => x b - x a)).prod) * inv a = 1)
    (f : Polynomial R) (hf : f.degree < (ids.length : WithBot Nat)) :
    (ids.map (fun a => f.eval (x a) * (((ids.erase a).map x).prod * inv a))).sum =
      f.eval 0 := by
  match ids, hnd, hxinj, hinv, hf with
  | [], _, _, _, hf =>
    have hf0 : f = 0 := by
      by_contra hp
      exact absurd (lt_of_le_of_lt (zero_le_degree_iff.mpr hp) hf) (by simp)
    simp [hf0]
  | a0 :: ids0, hnd, hxinj, hinv, hf =>
    set ids := a0 :: ids0 with hids
    set m := ids.length with hm
    have hm1 : 1 ≤ m := by rw [hm, hids]; simp
    set B : Nat → Polynomial R := fun a =>
      ((ids.erase a).map (fun b => X - C (x b))).prod with hB
    set coef : Nat → R := fun a => f.eval (x a) * ((-1 : R) ^ (m - 1) * inv a) with hcoef
    set err : Polynomial R := f - (ids.map (fun a => C (coef a) * B a)).sum with herr
    have hsq : ((-1 : R) ^ (m - 1)) * ((-1 : R) ^ (m - 1)) = 1 := by
      rw [← pow_add]
      exact Even.neg_one_pow ⟨m - 1, rfl⟩
    have hlen : ∀ a ∈ ids, (ids.erase a).length = m - 1 := by
      intro a ha
      rw [List.length_erase_of_mem ha, hm]
    -- evaluation of the basis polynomial at the nodes
    have hBeval : ∀ a c, (B a).eval (x c) = ((ids.erase a).map (fun b => x c - x b)).prod := by
      intro a c
      rw [hB]
      rw [eval_list_prod, List.map_map]
      congr 1
      apply List.map_congr_left
      intro b _
      simp
    have hBother : ∀ a ∈ ids, ∀ c ∈ ids, c ≠ a → (B a).eval (x c) = 0 := by
      intro a _ c hc hca
      rw [hBeval]
      apply List.prod_eq_zero
      exact List.mem_map.mpr ⟨c, (List.mem_erase_of_ne hca).mpr hc, sub_self (x c)⟩
    have hBself : ∀ a ∈ ids, (B a).eval (x a) * ((-1 : R) ^ (m - 1) * inv a) = 1 := by
      intro a ha
      rw [hBeval]
      have hneg : ((ids.erase a).map (fun b => x a - x b)).prod =
          (-1 : R) ^ (m - 1) * ((ids.erase a).map (fun b => x b - x a)).prod := by
        have : ((ids.erase a).map (fun b => x a - x b)) =
            ((ids.erase a).map (fun b => -(x b - x a))) := by
          apply List.map_congr_left
          intro b _
          ring
        rw [this, prod_map_neg, hlen a ha]
      rw [hneg]
      calc (-1 : R) ^ (m - 1) * ((ids.erase a).map (fun b => x b - x a)).prod *
            ((-1 : R) ^ (m - 1) * inv a)
          = ((-1 : R) ^ (m - 1) * (-1 : R) ^ (m - 1)) *
            (((ids.erase a).map (fun b => x b - x a)).prod * inv a) := by ring
        _ = 1 := by rw [hsq, hinv a ha, one_mul]
    -- pairwise units
    have hunit : ∀ a ∈ ids, ∀ b ∈ ids, b ≠ a → IsUnit (x b - x a) := by
      intro a ha b hb hba
      have hbmem : b ∈ ids.erase a := (List.mem_erase_of_ne hba).mpr hb
      have hex := prod_map_extract (ids.erase a) (fun b => x b - x a) hbmem
      have h1 := hinv a ha
      rw [hex, mul_assoc] at h1
      exact isUnit_of_mul_eq_one _ _ h1
    -- the error polynomial vanishes at every node
    have herrroots : ∀ c ∈ ids, err.eval (x c) = 0 := by
      intro c hc
      rw [herr, eval_sub]
      have hsum : ((ids.map (fun a => C (coef a) * B a)).sum).eval (x c) =
          (ids.map (fun a => coef a * (B a).eval (x c))).sum := by
        have hmap := map_list_sum (Polynomial.evalRingHom (x c))
          (ids.map (fun a => C (coef a) * B a))
        simp only [Polynomial.coe_evalRingHom] at hmap
        rw [hmap, List.map_map]
        congr 1
        apply List.map_congr_left
        intro a _
        simp [Function.comp]
      rw [hsum]
      have hsingle : (ids.map (fun a => coef a * (B a).eval (x c))).sum =
          coef c * (B c).eval (x c) := by
        refine sum_map_single ids (fun a => coef a * (B a).eval (x c)) c hc hnd ?_
        intro b hb hbc
        show coef b * (B b).eval (x c) = 0
        rw [hBother b hb c hc (fun hcb => hbc hcb.symm), mul_zero]
      rw [hsingle]
      have h2 := hBself c hc
      have hcoefc : coef c = f.eval (x c) * ((-1 : R) ^ (m - 1) * inv c) := rfl
      rw [hcoefc]
      linear_combination (-(f.eval (x c))) * h2
    -- degree bound for the error polynomial
    have herrdeg : err.degree < (m : WithBot Nat) := by
      rw [herr]
      apply lt_of_le_of_lt (degree_sub_le _ _)
      apply max_lt
      · exact hf
      apply degree_list_sum_lt
      intro p hp
      obtain ⟨a, ha, hap⟩ := List.mem_map.mp hp
      rw [← hap]
      apply lt_of_le_of_lt (degree_mul_le _ _)
      have h1 : (C (coef a)).degree ≤ 0 := degree_C_le
      have h2 : (B a).degree ≤ ((m - 1 : Nat) : WithBot Nat) := by
        have hcomp : (ids.erase a).map (fun b => X - C (x b)) =
            ((ids.erase a).map x).map (fun b => X - C b) := by
          rw [List.map_map]
          rfl
        have hdeg : (B a).natDegree = m - 1 := by
          rw [hB]
          show (((ids.erase a).map (fun b => X - C (x b))).prod).natDegree = m - 1
          rw [hcomp, natDegree_linear_prod, List.length_map, hlen a ha]
        calc (B a).degree ≤ (B a).natDegree := degree_le_natDegree
          _ = ((m - 1 : Nat) : WithBot Nat) := by rw [hdeg]
      apply lt_of_le_of_lt (add_le_add h1 h2)
      rw [zero_add]
      exact_mod_cast Nat.sub_lt hm1 Nat.one_pos
    -- the error polynomial is identically zero
    have herr0 : err = 0 := by
      apply vanish_of_roots (ids.map x) err
      · rw [List.pairwise_map]
        apply List.Pairwise.imp_of_mem ?_ hnd
        intro a b ha hb hab
        exact hunit b hb a ha hab
      · rw [List.length_map]
        exact herrdeg
      · intro v hv
        obtain ⟨c, hc, hcv⟩ := List.mem_map.mp hv
        rw [← hcv]
        exact herrroots c hc
    -- evaluate `f = Σ coef a • B a` at zero
    have hfeq : f = (ids.map (fun a => C (coef a) * B a)).sum := by
      have := sub_eq_zero.mp (herr ▸ herr0)
      exact this
    have hB0 : ∀ a ∈ ids, (B a).eval 0 =
        (-1 : R) ^ (m - 1) * ((ids.erase a).map x).prod := by
      intro a ha
      have h1 : (B a).eval 0 = ((ids.erase a).map (fun b => (0 : R) - x b)).prod := by
        rw [hB, eval_list_prod, List.map_map]
        congr 1
        apply List.map_congr_left
        intro b _
        simp
      rw [h1]
      have h2 : ((ids.erase a).map (fun b => (0 : R) - x b)) =
          ((ids.erase a).map (fun b => -(x b))) := by
        apply List.map_congr_left
        intro b _
        ring
      rw [h2, prod_map_neg, hlen a ha]
    have hev : f.eval 0 = (ids.map (fun a => coef a * (B a).eval 0)).sum := by
      conv_lhs => rw [hfeq]
      have hmap := map_list_sum (Polynomial.evalRingHom (0 : R))
        (ids.map (fun a => C (coef a) * B a))
      simp only [Polynomial.coe_evalRingHom] at hmap
      rw [hmap, List.map_map]
      congr 1
      apply List.map_congr_left
      intro a _
      simp [Function.comp]
    rw [hev]
    congr 1
    apply List.map_congr_left
    intro a ha
    symm
    show coef a * (B a).eval 0 = f.eval (x a) * (((ids.erase a).map x).prod * inv a)
    rw [hB0 a ha]
    have hca : coef a = f.eval (x a) * ((-1 : R) ^ (m - 1) * inv a) := rfl
    rw [hca]
    calc f.eval (x a) * ((-1 : R) ^ (m - 1) * inv a) *
          ((-1 : R) ^ (m - 1) * ((ids.erase a).map x).prod)
        = ((-1 : R) ^ (m - 1) * (-1 : R) ^ (m - 1)) *
          (f.eval (x a) * (((ids.erase a).map x).prod * inv a)) := by ring
      _ = f.eval (x a) * (((ids.erase a).map x).prod * inv a) := by rw [hsq, one_mul]

/-! ## Auxiliary lemmas: casting the cipher arithmetic into `ZMod L` -/


theorem L_pos : 0 < L := by decide

theorem cast_mod_L (a : Nat) : ((a % L : Nat) : ZMod L) = (a : ZMod L) :=
  ZMod.natCast_mod a L

theorem cast_scalarAdd (a b : Nat) :
    ((scalarAdd a b : Nat) : ZMod L) = (a : ZMod L) + (b : ZMod L) := by
  rw [scalarAdd, cast_mod_L, Nat.cast_add]

theorem cast_scalarMultiplyScalar (a b : Nat) :
    ((scalarMultiplyScalar a b : Nat) : ZMod L) = (a : ZMod L) * (b : ZMod L) := by
  rw [scalarMultiplyScalar, cast_mod_L, Nat.cast_mul]

theorem cast_elementAdd (a b : Nat) :
    ((elementAdd a b : Nat) : ZMod L) = (a : ZMod L) + (b : ZMod L) := by
  rw [elementAdd, cast_mod_L, Nat.cast_add]

theorem scalarAdd_lt (a b : Nat) : scalarAdd a b < L := Nat.mod_lt _ L_pos

theorem scalarMultiplyScalar_lt (a b : Nat) : scalarMultiplyScalar a b < L :=
  Nat.mod_lt _ L_pos

theorem elementAdd_lt (a b : Nat) : elementAdd a b < L := Nat.mod_lt _ L_pos

theorem scalarMultiply_lt (s P : Nat) : scalarMultiply s P < L := Nat.mod_lt _ L_pos

/-- For a canonical input (`s ≤ L`) the byte-wise negation computes
`L - s` with no wrap-around. -/
theorem scalarNegate_of_le {s : Nat} (h : s ≤ L) : scalarNegate s = L - s := by
  rw [scalarNegate, Nat.add_sub_assoc h, Nat.add_mod_left]
  exact Nat.mod_eq_of_lt (lt_of_le_of_lt (Nat.sub_le L s) (by decide))

theorem cast_scalarNegate {s : Nat} (h : s ≤ L) :
    ((scalarNegate s : Nat) : ZMod L) = -(s : ZMod L) := by
  rw [scalarNegate_of_le h, Nat.cast_sub h, ZMod.natCast_self, zero_sub]

theorem cast_scalarMultiply {s : Nat} (P : Nat) (h : s % L ≠ 0) :
    ((scalarMultiply s P : Nat) : ZMod L) = (s : ZMod L) * (P : ZMod L) := by
  rw [scalarMultiply, if_neg h, cast_mod_L, Nat.cast_mul, cast_mod_L]

/-- `scalarFromInt` embeds a small id `v < 256` as `v · 2^248`. -/
theorem scalarFromInt_small {v : Nat} (h : v < 256) :
    scalarFromInt v = v * 2 ^ 248 := by
  rw [scalarFromInt]
  have h24 : v / 2 ^ 24 = 0 := Nat.div_eq_of_lt (lt_of_lt_of_le h (by norm_num))
  have h16 : v / 2 ^ 16 = 0 := Nat.div_eq_of_lt (lt_of_lt_of_le h (by norm_num))
  have h8 : v / 2 ^ 8 = 0 := Nat.div_eq_of_lt (lt_of_lt_of_le h (by norm_num))
  rw [h24, h16, h8, Nat.mod_eq_of_lt h]
  ring

/-- For ids up to 16 the node value stays below the group order. -/
theorem scalarFromInt_lt_L {v : Nat} (h : v ≤ 16) : scalarFromInt v < L := by
  rw [scalarFromInt_small (by omega)]
  calc v * 2 ^ 248 ≤ 16 * 2 ^ 248 := Nat.mul_le_mul_right _ h
    _ < L := by decide

/-- The node map is injective on ids up to 16. -/
theorem xbar_inj {a b : Nat} (ha : a ≤ 16) (hb : b ≤ 16) (h : xbar a = xbar b) :
    a = b := by
  rw [xbar, xbar] at h
  have hva := ZMod.val_natCast_of_lt (scalarFromInt_lt_L ha)
  have hvb := ZMod.val_natCast_of_lt (scalarFromInt_lt_L hb)
  have hv : scalarFromInt a = scalarFromInt b := by
    rw [← hva, ← hvb, h]
  rw [scalarFromInt_small (by omega), scalarFromInt_small (by omega)] at hv
  exact Nat.eq_of_mul_eq_mul_right (by positivity) hv

/-! ## Auxiliary lemmas: coprimality with the group order -/

theorem coprime_L_two_pow (n : Nat) : Nat.Coprime L (2 ^ n) :=
  Nat.Coprime.pow_right n (by decide)

theorem coprime_L_small {d : Nat} (h1 : 0 < d) (h2 : d ≤ 16) : Nat.Coprime L d := by
  interval_cases d <;> decide

theorem coprime_L_mod {a : Nat} (h : Nat.Coprime L a) : Nat.Coprime L (a % L) := by
  have h1 : Nat.gcd L (a % L) = Nat.gcd (a % L) L := Nat.gcd_comm _ _
  have h2 : Nat.gcd L a = Nat.gcd (a % L) L := Nat.gcd_rec L a
  unfold Nat.Coprime at *
  rw [h1, ← h2]
  exact h

theorem coprime_L_sub {w : Nat} (hw : w ≤ L) (h : Nat.Coprime L w) :
    Nat.Coprime L (L - w) := by
  have hg1 : Nat.gcd L (L - w) ∣ L := Nat.gcd_dvd_left _ _
  have hg2 : Nat.gcd L (L - w) ∣ L - w := Nat.gcd_dvd_right _ _
  have hg3 : Nat.gcd L (L - w) ∣ w := by
    have := Nat.dvd_sub' hg1 hg2
    rwa [Nat.sub_sub_self hw] at this
  exact Nat.dvd_one.mp (h ▸ Nat.dvd_gcd hg1 hg3)

/-- The difference factor `scalarFromInt j - scalarFromInt i (mod ℓ)` as
computed through `scalarNegate` is coprime to the order, and casts to the
difference of the nodes, whenever both ids are at most 16 and distinct. -/
theorem subVal_spec {i j : Nat} (hi : i ≤ 16) (hj : j ≤ 16) (hij : j ≠ i) :
    Nat.Coprime L (scalarAdd (scalarFromInt j) (scalarNegate (scalarFromInt i))) ∧
    ((scalarAdd (scalarFromInt j) (scalarNegate (scalarFromInt i)) : Nat) : ZMod L) =
      xbar j - xbar i := by
  constructor
  · rw [scalarAdd, scalarNegate_of_le (le_of_lt (scalarFromInt_lt_L hi))]
    apply coprime_L_mod
    rw [scalarFromInt_small (by omega : j < 256), scalarFromInt_small (by omega : i < 256)]
    rcases Nat.lt_or_ge i j with hlt | hge
    · have he : j * 2 ^ 248 + (L - i * 2 ^ 248) = (j - i) * 2 ^ 248 + L := by
        have h1 : i * 2 ^ 248 ≤ L := le_of_lt (by
          rw [← scalarFromInt_small (by omega : i < 256)]
          exact scalarFromInt_lt_L hi)
        have h2 : i * 2 ^ 248 ≤ j * 2 ^ 248 := Nat.mul_le_mul_right _ (le_of_lt hlt)
        have h3 : (j - i) * 2 ^ 248 = j * 2 ^ 248 - i * 2 ^ 248 := Nat.sub_mul j i _
        omega
      rw [he]
      show Nat.gcd L ((j - i) * 2 ^ 248 + L) = 1
      rw [Nat.gcd_add_self_right]
      exact Nat.Coprime.mul_right (coprime_L_small (by omega) (by omega))
        (coprime_L_two_pow 248)
    · have hgt : j < i := lt_of_le_of_ne hge (by omega)
      have he : j * 2 ^ 248 + (L - i * 2 ^ 248) = L - (i - j) * 2 ^ 248 := by
        have h1 : i * 2 ^ 248 ≤ L := le_of_lt (by
          rw [← scalarFromInt_small (by omega : i < 256)]
          exact scalarFromInt_lt_L hi)
        have h3 : (i - j) * 2 ^ 248 = i * 2 ^ 248 - j * 2 ^ 248 := Nat.sub_mul i j _
        have h2 : j * 2 ^ 248 ≤ i * 2 ^ 248 := Nat.mul_le_mul_right _ (le_of_lt hgt)
        omega
      rw [he]
      apply coprime_L_sub
      · calc (i - j) * 2 ^ 248 ≤ 16 * 2 ^ 248 := Nat.mul_le_mul_right _ (by omega)
          _ ≤ L := by decide
      · exact Nat.Coprime.mul_right (coprime_L_small (by omega) (by omega))
          (coprime_L_two_pow 248)
  · rw [cast_scalarAdd, cast_scalarNegate (le_of_lt (scalarFromInt_lt_L hi))]
    rw [xbar, xbar]
    ring

/-! ## Auxiliary lemmas: the multiplicative accumulation loops -/

/-- A fold guarded by a decidable condition is the fold over the filtered
list. -/
theorem foldl_ite_eq_filter {α β : Type} (P : α → Prop) [DecidablePred P]
    (g : β → α → β) :
    ∀ (l : List α) (a : β),
      l.foldl (fun acc j => if P j then g acc j else acc) a =
        (l.filter (fun j => decide (P j))).foldl g a := by
  intro l
  induction l with
  | nil => intro a; rfl
  | cons b rest ih =>
    intro a
    by_cases hb : P b
    · rw [List.foldl_cons, if_pos hb, List.filter_cons, if_pos (by simpa using hb),
        List.foldl_cons, ih]
    · rw [List.foldl_cons, if_neg hb, List.filter_cons, if_neg (by simpa using hb), ih]

/-- A paired fold with a shared guard splits into its components. -/
theorem foldl_pair_split {α : Type} (P : α → Prop) [DecidablePred P]
    (g1 g2 : Nat → α → Nat) :
    ∀ (l : List α) (a b : Nat),
      l.foldl (fun (nd : Nat × Nat) j =>
        if P j then (g1 nd.1 j, g2 nd.2 j) else nd) (a, b) =
      (l.foldl (fun acc j => if P j then g1 acc j else acc) a,
       l.foldl (fun acc j => if P j then g2 acc j else acc) b) := by
  intro l
  induction l with
  | nil => intro a b; rfl
  | cons c rest ih =>
    intro a b
    by_cases hc : P c
    · simp only [List.foldl_cons, if_pos hc]
      exact ih (g1 a c) (g2 b c)
    · simp only [List.foldl_cons, if_neg hc]
      exact ih a b

/-- The running `scalarMultiplyScalar` accumulation computes the product
of all factors mod `L`. -/
theorem foldl_mulmod (f : Nat → Nat) :
    ∀ (l : List Nat) (a : Nat), a < L →
      l.foldl (fun acc j => scalarMultiplyScalar acc (f j)) a =
        a * (l.map f).prod % L := by
  intro l
  induction l with
  | nil =>
    intro a ha
    rw [List.foldl_nil, List.map_nil, List.prod_nil, Nat.mul_one, Nat.mod_eq_of_lt ha]
  | cons b rest ih =>
    intro a ha
    rw [List.foldl_cons, ih (scalarMultiplyScalar a (f b)) (scalarMultiplyScalar_lt _ _),
      List.map_cons, List.prod_cons, scalarMultiplyScalar, Nat.mod_mul_mod,
      Nat.mul_assoc]

/-- Coprimality of such an accumulated product, given coprimality of the
seed and of every factor. -/
theorem coprime_foldl_mulmod (f : Nat → Nat) (l : List Nat) (a : Nat)
    (ha : a < L) (hca : Nat.Coprime L a) (hf : ∀ j ∈ l, Nat.Coprime L (f j)) :
    Nat.Coprime L (l.foldl (fun acc j => scalarMultiplyScalar acc (f j)) a) := by
  rw [foldl_mulmod f l a ha]
  apply coprime_L_mod
  apply Nat.Coprime.mul_right hca
  induction l with
  | nil => simpa using Nat.coprime_one_right L
  | cons b rest ih =>
    rw [List.map_cons, List.prod_cons]
    exact Nat.Coprime.mul_right (hf b (List.mem_cons_self b rest))
      (ih (fun j hj => hf j (List.mem_cons_of_mem b hj)))

/-! ## Auxiliary lemmas: `deriveInterpolatingValue` characterised -/

/-- On a duplicate-free signer list of ids at most 16 containing `pid`,
`deriveInterpolatingValue` succeeds, and the returned Lagrange
coefficient casts to `(∏_{j ≠ pid} x_j) · inv` where `inv` is an inverse
of `∏_{j ≠ pid} (x_j - x_pid)` in `ZMod L`. -/
theorem deriveInterpolatingValue_ok (pid : Nat) (ids : List Nat)
    (hnd : ids.Nodup) (hmem : ∀ a ∈ ids, a ≤ 16) (hpid : pid ≤ 16) :
    ∃ lam w : Nat,
      deriveInterpolatingValue pid ids = some lam ∧
      (((ids.erase pid).map (fun b => xbar b - xbar pid)).prod) * (w : ZMod L) = 1 ∧
      ((lam : Nat) : ZMod L) = (((ids.erase pid).map xbar).prod) * (w : ZMod L) := by
  have hone : scalarFromInt 1 = 2 ^ 248 := by
    rw [scalarFromInt_small (by omega)]; ring
  have honelt : scalarFromInt 1 < L := scalarFromInt_lt_L (by omega)
  have hfilter : ids.filter (fun j => decide (j ≠ pid)) = ids.erase pid := by
    rw [List.Nodup.erase_eq_filter hnd]
    congr 1
    funext x
    by_cases h : x = pid <;> simp [h]
  -- the two accumulators
  have hsplit := foldl_pair_split (fun j => j ≠ pid)
    (fun acc j => scalarMultiplyScalar acc (scalarFromInt j))
    (fun acc j => scalarMultiplyScalar acc
      (scalarSubtract (scalarFromInt j) (scalarFromInt pid)))
    ids (scalarFromInt 1) (scalarFromInt 1)
  have hnum : (deriveNumDen pid ids).1 =
      (ids.erase pid).foldl
        (fun acc j => scalarMultiplyScalar acc (scalarFromInt j)) (scalarFromInt 1) := by
    rw [deriveNumDen, hsplit]
    rw [foldl_ite_eq_filter (fun j => j ≠ pid)
      (fun acc j => scalarMultiplyScalar acc (scalarFromInt j)) ids (scalarFromInt 1),
      hfilter]
  have hden : (deriveNumDen pid ids).2 =
      (ids.erase pid).foldl
        (fun acc j => scalarMultiplyScalar acc
          (scalarSubtract (scalarFromInt j) (scalarFromInt pid))) (scalarFromInt 1) := by
    rw [deriveNumDen, hsplit]
    rw [foldl_ite_eq_filter (fun j => j ≠ pid)
      (fun acc j => scalarMultiplyScalar acc
        (scalarSubtract (scalarFromInt j) (scalarFromInt pid))) ids (scalarFromInt 1),
      hfilter]
  -- the denominator is invertible
  have hmem' : ∀ j ∈ ids.erase pid, j ≤ 16 := fun j hj =>
    hmem j (List.mem_of_mem_erase hj)
  have hne : ∀ j ∈ ids.erase pid, j ≠ pid := by
    intro j hj
    intro hjp
    subst hjp
    exact (List.Nodup.not_mem_erase hnd) hj
  have hcden : Nat.Coprime L (deriveNumDen pid ids).2 := by
    rw [hden]
    apply coprime_foldl_mulmod _ _ _ honelt (by rw [hone]; exact coprime_L_two_pow 248)
    intro j hj
    exact (subVal_spec hpid (hmem' j hj) (hne j hj)).1
  obtain ⟨dInv, hdInv, hdlt, hdmul⟩ := scalarInvert_ok _ hcden
  refine ⟨scalarMultiplyScalar (deriveNumDen pid ids).1 dInv, 2 ^ 248 * dInv, ?_, ?_, ?_⟩
  · rw [deriveInterpolatingValue, hdInv]
    rfl
  · -- ∏ (x_j - x_pid) * (2^248 * dInv) = 1
    have hc : (((deriveNumDen pid ids).2 : Nat) : ZMod L) =
        (2 : ZMod L) ^ 248 * ((ids.erase pid).map (fun b => xbar b - xbar pid)).prod := by
      rw [hden, foldl_mulmod _ _ _ honelt, cast_mod_L, Nat.cast_mul, hone]
      rw [Nat.cast_list_prod, List.map_map]
      have : (ids.erase pid).map (Nat.cast ∘ fun j =>
          scalarSubtract (scalarFromInt j) (scalarFromInt pid)) =
          (ids.erase pid).map (fun b => xbar b - xbar pid) := by
        apply List.map_congr_left
        intro j hj
        show ((scalarSubtract (scalarFromInt j) (scalarFromInt pid) : Nat) : ZMod L) = _
        rw [scalarSubtract]
        exact (subVal_spec hpid (hmem' j hj) (hne j hj)).2
      rw [this]
      push_cast
      ring
    have hm : (((deriveNumDen pid ids).2 * dInv : Nat) : ZMod L) = 1 := by
      rw [← cast_mod_L, hdmul, Nat.cast_one]
    rw [Nat.cast_mul, hc] at hm
    calc ((ids.erase pid).map (fun b => xbar b - xbar pid)).prod * ((2 ^ 248 * dInv : Nat) : ZMod L)
        = (2 : ZMod L) ^ 248 * ((ids.erase pid).map (fun b => xbar b - xbar pid)).prod
          * (dInv : ZMod L) := by push_cast; ring
      _ = 1 := hm
  · -- the coefficient value
    have hc : (((deriveNumDen pid ids).1 : Nat) : ZMod L) =
        (2 : ZMod L) ^ 248 * ((ids.erase pid).map xbar).prod := by
      rw [hnum, foldl_mulmod _ _ _ honelt, cast_mod_L, Nat.cast_mul, hone]
      rw [Nat.cast_list_prod, List.map_map]
      have : (ids.erase pid).map (Nat.cast ∘ fun j => scalarFromInt j) =
          (ids.erase pid).map xbar := by
        apply List.map_congr_left
        intro j _
        rfl
      rw [this]
      push_cast
      ring
    rw [cast_scalarMultiplyScalar, hc]
    push_cast
    ring




/-! ## Auxiliary lemmas: the Shamir polynomial -/

theorem withBot_lt_succ_of_lt {a : WithBot Nat} {n : Nat}
    (h : a < ((n : Nat) : WithBot Nat)) : 1 + a < ((n + 1 : Nat) : WithBot Nat) := by
  rw [Nat.cast_withBot] at h
  rw [Nat.cast_withBot]
  cases a using WithBot.recBotCoe with
  | bot =>
    rw [WithBot.add_bot]
    exact WithBot.bot_lt_coe _
  | coe d =>
    have hd : d < n := WithBot.coe_lt_coe.mp h
    rw [← WithBot.coe_one, ← WithBot.coe_add]
    exact WithBot.coe_lt_coe.mpr (by omega)

theorem polyOfCoeffs_nil {R : Type} [CommRing R] : polyOfCoeffs ([] : List R) = 0 := rfl

theorem polyOfCoeffs_cons {R : Type} [CommRing R] (c : R) (cs : List R) :
    polyOfCoeffs (c :: cs) = C c + X * polyOfCoeffs cs := rfl

theorem eval_polyOfCoeffs_cons {R : Type} [CommRing R] (c : R) (cs : List R) (x : R) :
    (polyOfCoeffs (c :: cs)).eval x = c + x * (polyOfCoeffs cs).eval x := by
  rw [polyOfCoeffs_cons]
  simp

theorem eval_polyOfCoeffs_zero {R : Type} [CommRing R] (c : R) (cs : List R) :
    (polyOfCoeffs (c :: cs)).eval 0 = c := by
  rw [eval_polyOfCoeffs_cons, zero_mul, add_zero]

theorem degree_polyOfCoeffs_lt {R : Type} [CommRing R] (cs : List R) :
    (polyOfCoeffs cs).degree < (cs.length : WithBot Nat) := by
  induction cs with
  | nil =>
    rw [polyOfCoeffs_nil, degree_zero]
    exact WithBot.bot_lt_coe _
  | cons c rest ih =>
    rw [polyOfCoeffs_cons]
    apply lt_of_le_of_lt (degree_add_le _ _)
    apply max_lt
    · apply lt_of_le_of_lt degree_C_le
      exact_mod_cast Nat.succ_pos rest.length
    · apply lt_of_le_of_lt (degree_mul_le _ _)
      apply lt_of_le_of_lt (add_le_add degree_X_le (le_refl (polyOfCoeffs rest).degree))
      rw [List.length_cons]
      exact withBot_lt_succ_of_lt ih

/-- The evaluation loop of `evaluatePolynomial` casts to polynomial
evaluation. -/
theorem cast_evalPolyGo (xb : Nat) :
    ∀ (cs : List Nat) (acc xp : Nat),
      ((evalPolyGo xb acc xp cs : Nat) : ZMod L) =
        (acc : ZMod L) + (xp : ZMod L) *
          (polyOfCoeffs (cs.map (Nat.cast : Nat → ZMod L))).eval ((xb : Nat) : ZMod L) := by
  intro cs
  induction cs with
  | nil =>
    intro acc xp
    rw [evalPolyGo, List.map_nil, polyOfCoeffs_nil]
    simp
  | cons c rest ih =>
    intro acc xp
    rw [evalPolyGo, ih, List.map_cons, eval_polyOfCoeffs_cons,
      cast_scalarAdd, cast_scalarMultiplyScalar, cast_scalarMultiplyScalar]
    ring

/-- `evaluatePolynomial` casts to evaluation of the coefficient
polynomial at the node `xbar x`. -/
theorem cast_evaluatePolynomial (c0 : Nat) (rest : List Nat) (x : Nat) :
    ((evaluatePolynomial (c0 :: rest) x : Nat) : ZMod L) =
      (polyOfCoeffs ((c0 :: rest).map (Nat.cast : Nat → ZMod L))).eval (xbar x) := by
  rw [evaluatePolynomial, cast_evalPolyGo, List.map_cons, eval_polyOfCoeffs_cons, xbar]

/-! ## Auxiliary lemmas: the index-keyed loops of `recover` -/

theorem enum_foldl_no_hit {α β : Type} (g : β → α → β) (t : Nat) :
    ∀ (l : List α) (k : Nat) (a : β), t < k →
      (List.enumFrom k l).foldl (fun acc p => if p.1 = t then acc else g acc p.2) a =
        l.foldl g a := by
  intro l
  induction l with
  | nil => intro k a _; rfl
  | cons b rest ih =>
    intro k a hk
    rw [List.enumFrom, List.foldl_cons, List.foldl_cons, if_neg (by omega)]
    exact ih (k + 1) (g a b) (by omega)

theorem enum_foldl_skip {α β : Type} (g : β → α → β) :
    ∀ (l : List α) (i k t : Nat) (a : β), t = k + i →
      (List.enumFrom k l).foldl (fun acc p => if p.1 = t then acc else g acc p.2) a =
        (l.eraseIdx i).foldl g a := by
  intro l
  induction l with
  | nil => intro i k t a _; rfl
  | cons b rest ih =>
    intro i k t a ht
    match i with
    | 0 =>
      rw [List.enumFrom, List.foldl_cons, if_pos (by omega), List.eraseIdx]
      exact enum_foldl_no_hit g t rest (k + 1) a (by omega)
    | i + 1 =>
      rw [List.enumFrom, List.foldl_cons, if_neg (by omega), List.eraseIdx, List.foldl_cons]
      exact ih i (k + 1) t (g a b) (by omega)

theorem eraseIdx_eq_erase :
    ∀ (l : List Nat) (i : Nat) (h : i < l.length), l.Nodup →
      l.eraseIdx i = l.erase (l.get ⟨i, h⟩) := by
  intro l
  induction l with
  | nil => intro i h; exact absurd h (by simp)
  | cons a rest ih =>
    intro i h hnd
    match i with
    | 0 =>
      rw [List.eraseIdx]
      show rest = (a :: rest).erase a
      rw [List.erase_cons_head]
    | i + 1 =>
      have hi : i < rest.length := by simpa using h
      have hb : rest.get ⟨i, hi⟩ ∈ rest := List.get_mem rest i hi
      have hab : a ≠ rest.get ⟨i, hi⟩ := by
        intro he
        exact (List.nodup_cons.mp hnd).1 (he ▸ hb)
      have hne : ¬(a == rest.get ⟨i, hi⟩) = true := by simpa using hab
      rw [List.eraseIdx]
      show a :: rest.eraseIdx i = (a :: rest).erase (rest.get ⟨i, hi⟩)
      rw [List.erase_cons_tail hne]
      rw [ih i hi (List.nodup_cons.mp hnd).2]

theorem recoverNum_eq_recNum (ids : List Nat) (i : Nat) (h : i < ids.length)
    (hnd : ids.Nodup) :
    recoverNum ids i = recNum ids (ids.get ⟨i, h⟩) := by
  rw [recoverNum, recNum, ← eraseIdx_eq_erase ids i h hnd]
  exact enum_foldl_skip
    (fun acc j => scalarMultiplyScalar acc (scalarNegate (scalarFromInt j)))
    ids i 0 i (scalarFromInt 1) (by omega)

theorem recoverDen_eq_recDen (ids : List Nat) (i : Nat) (h : i < ids.length)
    (hnd : ids.Nodup) (xi : Nat) :
    recoverDen ids i xi = (ids.erase (ids.get ⟨i, h⟩)).foldl
      (fun acc j => scalarMultiplyScalar acc
        (scalarAdd (scalarFromInt xi) (scalarNegate (scalarFromInt j))))
      (scalarFromInt 1) := by
  rw [recoverDen, ← eraseIdx_eq_erase ids i h hnd]
  exact enum_foldl_skip
    (fun acc j => scalarMultiplyScalar acc
      (scalarAdd (scalarFromInt xi) (scalarNegate (scalarFromInt j))))
    ids i 0 i (scalarFromInt 1) (by omega)

/-! ## Auxiliary lemmas: the Lagrange terms of `recover` -/

/-- The `recover` denominator for id `a` is coprime to the order, and its
cast is `2^248 · ∏_{j ≠ a} (x_a - x_j)`. -/
theorem recDen_spec (ids : List Nat) (a : Nat) (hnd : ids.Nodup)
    (hmem : ∀ b ∈ ids, b ≤ 16) (ha : a ∈ ids) :
    Nat.Coprime L (recDen ids a) ∧
    ((recDen ids a : Nat) : ZMod L) =
      (2 : ZMod L) ^ 248 * ((ids.erase a).map (fun j => xbar a - xbar j)).prod := by
  have hone : scalarFromInt 1 = 2 ^ 248 := by
    rw [scalarFromInt_small (by omega)]; ring
  have honelt : scalarFromInt 1 < L := scalarFromInt_lt_L (by omega)
  have hmem' : ∀ j ∈ ids.erase a, j ≤ 16 := fun j hj =>
    hmem j (List.mem_of_mem_erase hj)
  have hne : ∀ j ∈ ids.erase a, a ≠ j := by
    intro j hj hja
    subst hja
    exact (List.Nodup.not_mem_erase hnd) hj
  constructor
  · rw [recDen]
    apply coprime_foldl_mulmod _ _ _ honelt (by rw [hone]; exact coprime_L_two_pow 248)
    intro j hj
    exact (subVal_spec (hmem' j hj) (hmem a ha) (hne j hj)).1
  · rw [recDen, foldl_mulmod _ _ _ honelt, cast_mod_L, Nat.cast_mul, hone,
      Nat.cast_list_prod, List.map_map]
    have hmapeq : (ids.erase a).map (Nat.cast ∘ fun j =>
        scalarAdd (scalarFromInt a) (scalarNegate (scalarFromInt j))) =
        (ids.erase a).map (fun j => xbar a - xbar j) := by
      apply List.map_congr_left
      intro j hj
      exact (subVal_spec (hmem' j hj) (hmem a ha) (hne j hj)).2
    rw [hmapeq]
    push_cast
    ring

/-- The `recover` numerator for id `a` casts to
`2^248 · ∏_{j ≠ a} (-x_j)`. -/
theorem recNum_spec (ids : List Nat) (a : Nat) (hmem : ∀ b ∈ ids, b ≤ 16) :
    ((recNum ids a : Nat) : ZMod L) =
      (2 : ZMod L) ^ 248 * ((ids.erase a).map (fun j => -(xbar j))).prod := by
  have hone : scalarFromInt 1 = 2 ^ 248 := by
    rw [scalarFromInt_small (by omega)]; ring
  have honelt : scalarFromInt 1 < L := scalarFromInt_lt_L (by omega)
  rw [recNum, foldl_mulmod _ _ _ honelt, cast_mod_L, Nat.cast_mul, hone,
    Nat.cast_list_prod, List.map_map]
  have hmapeq : (ids.erase a).map (Nat.cast ∘ fun j =>
      scalarNegate (scalarFromInt j)) =
      (ids.erase a).map (fun j => -(xbar j)) := by
    apply List.map_congr_left
    intro j hj
    show ((scalarNegate (scalarFromInt j) : Nat) : ZMod L) = -(xbar j)
    rw [cast_scalarNegate (le_of_lt (scalarFromInt_lt_L (hmem j (List.mem_of_mem_erase hj)))), xbar]
  rw [hmapeq]
  push_cast
  ring

/-- On a valid id list, the recover denominator inverts, the Lagrange
inverse property holds for `recInvF`, and the per-share coefficient
`num · dInv` casts to `(∏_{j ≠ a} x_j) · recInvF ids a`. -/
theorem recTerm_spec (ids : List Nat) (a : Nat) (hnd : ids.Nodup)
    (hmem : ∀ b ∈ ids, b ≤ 16) (ha : a ∈ ids) :
    ∃ dInv : Nat, scalarInvert (recDen ids a) = some dInv ∧
      (((ids.erase a).map (fun b => xbar b - xbar a)).prod) * recInvF ids a = 1 ∧
      ((scalarMultiplyScalar (recNum ids a) dInv : Nat) : ZMod L) =
        (((ids.erase a).map xbar).prod) * recInvF ids a := by
  obtain ⟨hcop, hcast⟩ := recDen_spec ids a hnd hmem ha
  obtain ⟨dInv, hdInv, hdlt, hdmul⟩ := scalarInvert_ok _ hcop
  have hgetD : (scalarInvert (recDen ids a)).getD 0 = dInv := by rw [hdInv]; rfl
  have hlen : (ids.erase a).length = ids.length - 1 := List.length_erase_of_mem ha
  have hmulone : (((recDen ids a) * dInv : Nat) : ZMod L) = 1 := by
    rw [← cast_mod_L, hdmul, Nat.cast_one]
  rw [Nat.cast_mul, hcast] at hmulone
  have hsignden : ((ids.erase a).map (fun j => xbar a - xbar j)).prod =
      (-1 : ZMod L) ^ (ids.length - 1) *
        ((ids.erase a).map (fun b => xbar b - xbar a)).prod := by
    have h1 : (ids.erase a).map (fun j => xbar a - xbar j) =
        (ids.erase a).map (fun j => -(xbar j - xbar a)) := by
      apply List.map_congr_left
      intro j _
      ring
    rw [h1, prod_map_neg, hlen]
  have hsignnum : ((ids.erase a).map (fun j => -(xbar j))).prod =
      (-1 : ZMod L) ^ (ids.length - 1) * ((ids.erase a).map xbar).prod := by
    have h1 : (ids.erase a).map (fun j => -(xbar j)) =
        (ids.erase a).map (fun j => -(xbar j)) := rfl
    rw [prod_map_neg, hlen]
  have hsq : ((-1 : ZMod L) ^ (ids.length - 1)) * ((-1 : ZMod L) ^ (ids.length - 1)) = 1 := by
    rw [← pow_add]
    exact Even.neg_one_pow ⟨ids.length - 1, rfl⟩
  refine ⟨dInv, hdInv, ?_, ?_⟩
  · rw [recInvF, hgetD]
    calc (((ids.erase a).map (fun b => xbar b - xbar a)).prod) *
          ((-1 : ZMod L) ^ (ids.length - 1) * ((2 ^ 248 * dInv : Nat) : ZMod L))
        = ((-1 : ZMod L) ^ (ids.length - 1) *
            (((ids.erase a).map (fun b => xbar b - xbar a)).prod)) *
          ((2 ^ 248 * dInv : Nat) : ZMod L) := by ring
      _ = ((ids.erase a).map (fun j => xbar a - xbar j)).prod *
          ((2 ^ 248 * dInv : Nat) : ZMod L) := by rw [← hsignden]
      _ = (2 : ZMod L) ^ 248 * ((ids.erase a).map (fun j => xbar a - xbar j)).prod *
          (dInv : ZMod L) := by push_cast; ring
      _ = 1 := hmulone
  · rw [cast_scalarMultiplyScalar, recNum_spec ids a hmem, hsignnum, recInvF, hgetD]
    push_cast
    ring

/-- The accumulation loop of `recover` succeeds on a valid prefix and
computes the Lagrange sum of the remaining shares. -/
theorem recoverGo_ok (ids : List Nat) (hnd : ids.Nodup)
    (hmem : ∀ b ∈ ids, b ≤ 16) :
    ∀ (rest : List KeyPackage) (i acc : Nat),
      List.drop i ids = rest.map (·.participantId) → acc < L →
      ∃ v : Nat, recoverGo ids i acc rest = .ok v ∧ v < L ∧
        ((v : Nat) : ZMod L) = (acc : ZMod L) +
          (rest.map (fun kp => (kp.privateShare : ZMod L) *
            ((((ids.erase kp.participantId).map xbar).prod) *
              recInvF ids kp.participantId))).sum := by
  intro rest
  induction rest with
  | nil =>
    intro i acc _ hacc
    exact ⟨acc, rfl, hacc, by simp⟩
  | cons kp rest ih =>
    intro i acc hdrop hacc
    have hi : i < ids.length := by
      by_contra hc
      rw [List.drop_eq_nil_of_le (by omega)] at hdrop
      exact absurd hdrop (by simp)
    have hget : ids.get ⟨i, hi⟩ = kp.participantId := by
      have h0 : (List.drop i ids)[0]? = some kp.participantId := by
        rw [hdrop]; simp
      rw [List.getElem?_drop] at h0
      simp only [Nat.add_zero] at h0
      rw [List.getElem?_eq_getElem hi] at h0
      exact Option.some.inj h0
    have hmema : kp.participantId ∈ ids := hget ▸ List.get_mem ids i hi
    have hdrop' : List.drop (i + 1) ids = rest.map (·.participantId) := by
      have h1 : (List.drop i ids).drop 1 = rest.map (·.participantId) := by
        rw [hdrop]; rfl
      rwa [List.drop_drop] at h1
    obtain ⟨dInv, hdInv, _, hterm⟩ := recTerm_spec ids kp.participantId hnd hmem hmema
    have hden : recoverDen ids i kp.participantId = recDen ids kp.participantId := by
      rw [recoverDen_eq_recDen ids i hi hnd, hget, recDen]
    have hnum : recoverNum ids i = recNum ids kp.participantId := by
      rw [recoverNum_eq_recNum ids i hi hnd, hget]
    rw [recoverGo, hden, hdInv]
    obtain ⟨v, hv, hvlt, hvcast⟩ := ih (i + 1)
      (scalarAdd acc (scalarMultiplyScalar kp.privateShare
        (scalarMultiplyScalar (recoverNum ids i) dInv)))
      hdrop' (scalarAdd_lt _ _)
    refine ⟨v, hv, hvlt, ?_⟩
    rw [hvcast, cast_scalarAdd, cast_scalarMultiplyScalar, hnum, hterm]
    rw [List.map_cons, List.sum_cons]
    ring

/-- On a selection of distinct ids at most 16, with a polynomial of
degree below the quorum size, `recover` of the corresponding split
packages returns the secret reduced mod `L`. -/
theorem recover_split_ok (sk : Nat) (rand : List Nat) (t : Nat) (sel : List Nat)
    (ht : rand.length < t) (hlen : t ≤ sel.length)
    (hnd : (sel.take t).Nodup) (hmem : ∀ id ∈ sel.take t, id ≤ 16) :
    recover (sel.map (makeKeyPackage sk rand)) t = .ok (sk % L) := by
  set ids := sel.take t with hids
  have hkps : (sel.map (makeKeyPackage sk rand)).take t =
      ids.map (makeKeyPackage sk rand) := by
    rw [hids, List.map_take]
  have hlens : ids.length = t := by
    rw [hids, List.length_take]; omega
  have hidmap : (ids.map (makeKeyPackage sk rand)).map (·.participantId) = ids := by
    simp [Function.comp_def, makeKeyPackage]
  have hxinj : ∀ a ∈ ids, ∀ b ∈ ids, xbar a = xbar b → a = b :=
    fun a ha b hb h => xbar_inj (hmem a ha) (hmem b hb) h
  have hinv : ∀ a ∈ ids,
      (((ids.erase a).map (fun b => xbar b - xbar a)).prod) * recInvF ids a = 1 := by
    intro a ha
    obtain ⟨dInv, _, h2, _⟩ := recTerm_spec ids a hnd hmem ha
    exact h2
  have hf : (polyOfCoeffs ((sk :: rand).map (Nat.cast : Nat → ZMod L))).degree <
      (ids.length : WithBot Nat) := by
    apply lt_of_lt_of_le (degree_polyOfCoeffs_lt _)
    rw [List.length_map, List.length_cons, hlens]
    rw [Nat.cast_withBot, Nat.cast_withBot, WithBot.coe_le_coe]
    omega
  obtain ⟨v, hv, hvlt, hvcast⟩ := recoverGo_ok ids hnd hmem
    (ids.map (makeKeyPackage sk rand)) 0 0
    (by rw [List.drop_zero, hidmap]) L_pos
  have hsum : ((ids.map (makeKeyPackage sk rand)).map
        (fun kp => (kp.privateShare : ZMod L) *
          ((((ids.erase kp.participantId).map xbar).prod) *
            recInvF ids kp.participantId))).sum = (sk : ZMod L) := by
    rw [List.map_map]
    have hcong : ids.map ((fun kp : KeyPackage => (kp.privateShare : ZMod L) *
          ((((ids.erase kp.participantId).map xbar).prod) *
            recInvF ids kp.participantId)) ∘ makeKeyPackage sk rand) =
        ids.map (fun a => (polyOfCoeffs ((sk :: rand).map
            (Nat.cast : Nat → ZMod L))).eval (xbar a) *
          ((((ids.erase a).map xbar).prod) * recInvF ids a)) := by
      apply List.map_congr_left
      intro a _
      simp only [Function.comp_def, makeKeyPackage]
      rw [cast_evaluatePolynomial]
    rw [hcong, lagrange_interpolation ids xbar (recInvF ids) hnd hxinj hinv _ hf,
      List.map_cons, eval_polyOfCoeffs_zero]
  have hvval : v = sk % L := by
    have h1 : ((v : Nat) : ZMod L) = ((sk % L : Nat) : ZMod L) := by
      rw [hvcast, Nat.cast_zero, zero_add, hsum, cast_mod_L]
    calc v = (((v : Nat) : ZMod L)).val := (ZMod.val_natCast_of_lt hvlt).symm
      _ = (((sk % L : Nat) : ZMod L)).val := by rw [h1]
      _ = sk % L := ZMod.val_natCast_of_lt (Nat.mod_lt _ L_pos)
  rw [recover, if_neg (by rw [List.length_map]; omega), hkps, hidmap, hv, hvval]


/-! ## Auxiliary lemmas: the signing path -/

theorem lookup_map_self (f : Nat → Nat) :
    ∀ (ids : List Nat) (id : Nat), id ∈ ids →
      (ids.map (fun i => (i, f i))).lookup id = some (f id)
  | [], _, h => absurd h (List.not_mem_nil _)
  | a :: rest, id, h => by
    rw [List.map_cons, List.lookup_cons]
    by_cases ha : id = a
    · subst ha
      simp
    · have hbeq : (id == a) = false := beq_false_of_ne ha
      rw [hbeq]
      exact lookup_map_self f rest id (by
        rcases List.mem_cons.1 h with h1 | h1
        · exact absurd h1 ha
        · exact h1)

theorem any_eq_of_mem {ids : List Nat} {id : Nat} (h : id ∈ ids) :
    (ids.any (fun i => i = id)) = true := by
  rw [List.any_eq_true]
  exact ⟨id, h, by simp⟩

/-- The commitment-coverage check of `createSigningPackage` passes when
the shares carry exactly the participant ids. -/
theorem coverage_eq_false {ids : List Nat} {shares : List CommitmentShare}
    (h : shares.map (·.participantId) = ids) :
    (ids.any (fun id => ¬ shares.any (fun s => s.participantId = id))) = false := by
  rw [List.any_eq_false]
  intro id hid
  simp only [decide_not, Bool.not_eq_true', Bool.not_eq_false,
    decide_eq_true_eq, List.any_eq_true]
  have : id ∈ shares.map (·.participantId) := h ▸ hid
  obtain ⟨s, hs, hsid⟩ := List.mem_map.1 this
  exact ⟨s, hs, by simp [hsid]⟩

/-- The share-coverage check of `aggregateSignatures` passes when the
share list carries exactly the participant ids. -/
theorem share_coverage_eq_false {ids : List Nat} {shares : List (Nat × Nat)}
    (h : shares.map (·.1) = ids) :
    (ids.any (fun id => ¬ shares.any (fun s => s.1 = id))) = false := by
  rw [List.any_eq_false]
  intro id hid
  simp only [decide_not, Bool.not_eq_true', Bool.not_eq_false,
    decide_eq_true_eq, List.any_eq_true]
  have : id ∈ shares.map (·.1) := h ▸ hid
  obtain ⟨s, hs, hsid⟩ := List.mem_map.1 this
  exact ⟨s, hs, by simp [hsid]⟩

/-- The group-commitment accumulation loop succeeds when every share's
binding factor resolves, and returns the reduced sum of the per-share
terms. -/
theorem groupCommitmentLoop_ok (bf : List (Nat × Nat)) (rho : Nat → Nat) :
    ∀ (shares : List CommitmentShare) (acc : Nat), acc < L →
      (∀ s ∈ shares, bf.lookup s.participantId = some (rho s.participantId)) →
      ∃ R, groupCommitmentLoop bf acc shares = .ok R ∧ R < L ∧
        ((R : Nat) : ZMod L) = (acc : ZMod L) +
          (shares.map (fun s => ((elementAdd s.hidingCommitment
            (scalarMultiply (rho s.participantId) s.bindingCommitment) : Nat) :
              ZMod L))).sum
  | [], acc, hacc, _ => ⟨acc, rfl, hacc, by simp⟩
  | s :: rest, acc, hacc, hcov => by
    rw [groupCommitmentLoop, hcov s (List.mem_cons_self s rest)]
    obtain ⟨R, hR, hRlt, hRcast⟩ := groupCommitmentLoop_ok bf rho rest
      (elementAdd acc (elementAdd s.hidingCommitment
        (scalarMultiply (rho s.participantId) s.bindingCommitment)))
      (elementAdd_lt _ _)
      (fun s hs => hcov s (List.mem_cons_of_mem _ hs))
    refine ⟨R, hR, hRlt, ?_⟩
    rw [hRcast, cast_elementAdd, List.map_cons, List.sum_cons]
    ring

/-- `computeGroupCommitment` (commitment part) succeeds on a non-empty
share list with resolving binding factors, and the result casts to
`Σ (Dᵢ + ρᵢ·Eᵢ)`. -/
theorem computeGroupCommitmentR_ok (bf : List (Nat × Nat)) (rho : Nat → Nat)
    (s0 : CommitmentShare) (rest : List CommitmentShare)
    (hcov : ∀ s ∈ s0 :: rest, bf.lookup s.participantId = some (rho s.participantId)) :
    ∃ R, computeGroupCommitmentR bf (s0 :: rest) = .ok R ∧ R < L ∧
      ((R : Nat) : ZMod L) = ((s0 :: rest).map (fun s =>
        ((elementAdd s.hidingCommitment
          (scalarMultiply (rho s.participantId) s.bindingCommitment) : Nat) :
            ZMod L))).sum := by
  rw [computeGroupCommitmentR, hcov s0 (List.mem_cons_self s0 rest)]
  obtain ⟨R, hR, hRlt, hRcast⟩ := groupCommitmentLoop_ok bf rho rest
    (elementAdd s0.hidingCommitment
      (scalarMultiply (rho s0.participantId) s0.bindingCommitment))
    (elementAdd_lt _ _)
    (fun s hs => hcov s (List.mem_cons_of_mem _ hs))
  refine ⟨R, hR, hRlt, ?_⟩
  rw [hRcast, List.map_cons, List.sum_cons]

/-- The aggregation fold of `aggregateSignatures` stays reduced and casts
to the sum of the accumulated share values. -/
theorem foldl_scalarAdd_ok :
    ∀ (l : List (Nat × Nat)) (a : Nat), a < L →
      (l.foldl (fun z s => scalarAdd z s.2) a) < L ∧
      (((l.foldl (fun z s => scalarAdd z s.2) a : Nat)) : ZMod L) =
        (a : ZMod L) + (l.map (fun s => (s.2 : ZMod L))).sum
  | [], a, ha => ⟨ha, by simp⟩
  | s :: rest, a, ha => by
    obtain ⟨h1, h2⟩ := foldl_scalarAdd_ok rest (scalarAdd a s.2) (scalarAdd_lt _ _)
    refine ⟨h1, ?_⟩
    rw [List.foldl_cons] at *
    rw [h2, cast_scalarAdd, List.map_cons, List.sum_cons]
    ring

/-- `sign_round2` succeeds for a participant of the package whose binding
factor and interpolating value resolve, with the round-2 share
`d + e·ρ + (λ·s)·c mod L`. -/
theorem sign_round2_ok (H : List Nat → Nat) (kp : KeyPackage) (pkg : SigningPackage)
    (nonces : Nat × Nat) (PK : Nat) (rho lam : Nat)
    (hmem : kp.participantId ∈ pkg.participantIds)
    (hrho : pkg.bindingFactors.lookup kp.participantId = some rho)
    (hlam : deriveInterpolatingValue kp.participantId pkg.participantIds = some lam) :
    sign_round2 H kp pkg nonces PK = .ok (kp.participantId,
      scalarAdd (scalarAdd nonces.1 (scalarMultiplyScalar nonces.2 rho))
        (scalarMultiplyScalar (scalarMultiplyScalar lam kp.privateShare)
          (computeChallenge H (elementToBytes pkg.commitment) (elementToBytes PK)
            pkg.message))) := by
  rw [sign_round2, if_neg (not_not_intro (any_eq_of_mem hmem)), hrho, hlam]

/-- `roundTwoAll` succeeds when every signer passes `sign_round2`,
returning the list of round-2 shares in order. -/
theorem roundTwoAll_ok (H : List Nat → Nat) (pkg : SigningPackage) (PK : Nat)
    (rho lam : Nat → Nat) :
    ∀ pairs : List (KeyPackage × (Nat × Nat)),
      (∀ p ∈ pairs, p.1.participantId ∈ pkg.participantIds) →
      (∀ p ∈ pairs, pkg.bindingFactors.lookup p.1.participantId =
        some (rho p.1.participantId)) →
      (∀ p ∈ pairs, deriveInterpolatingValue p.1.participantId pkg.participantIds =
        some (lam p.1.participantId)) →
      roundTwoAll H pkg PK pairs = .ok (pairs.map (fun p =>
        (p.1.participantId,
          scalarAdd (scalarAdd p.2.1 (scalarMultiplyScalar p.2.2 (rho p.1.participantId)))
            (scalarMultiplyScalar
              (scalarMultiplyScalar (lam p.1.participantId) p.1.privateShare)
              (computeChallenge H (elementToBytes pkg.commitment)
                (elementToBytes PK) pkg.message)))))
  | [], _, _, _ => rfl
  | p :: rest, hmem, hrho, hlam => by
    rw [roundTwoAll, sign_round2_ok H p.1 pkg p.2 PK _ _
      (hmem p (List.mem_cons_self p rest)) (hrho p (List.mem_cons_self p rest))
      (hlam p (List.mem_cons_self p rest))]
    rw [roundTwoAll_ok H pkg PK rho lam rest
      (fun q hq => hmem q (List.mem_cons_of_mem _ hq))
      (fun q hq => hrho q (List.mem_cons_of_mem _ hq))
      (fun q hq => hlam q (List.mem_cons_of_mem _ hq))]
    rw [List.map_cons]

/-- `verify` accepts whenever the recomputed left and right group
elements agree. -/
theorem verify_eq_true (H : List Nat → Nat) (R z : Nat) (message : List Nat) (PK : Nat)
    (h : scalarMultiply z baseElement = elementAdd R (scalarMultiply
      (computeChallenge H (elementToBytes R) (elementToBytes PK) message) PK)) :
    verify H R z message PK = true := by
  rw [verify]
  show (elementToBytes (scalarMultiply z baseElement) ==
    elementToBytes (elementAdd R (scalarMultiply _ PK))) = true
  rw [h]
  exact beq_self_eq_true _

/-- The core interpolation identity of the signing path: over a
duplicate-free list of signer ids at most 16 that is longer than the
polynomial degree, the sum of `λ_a · s_a` over the signers casts to the
secret, where `λ_a` is the value produced by `deriveInterpolatingValue`
and `s_a` the Shamir share of `a`. -/
theorem interpolation_sum_eq (sk : Nat) (rand : List Nat) (sel : List Nat)
    (hdeg : rand.length + 1 ≤ sel.length)
    (hnd : sel.Nodup) (hmem : ∀ id ∈ sel, id ≤ 16) :
    (sel.map (fun a => (((deriveInterpolatingValue a sel).getD 0 : Nat) : ZMod L) *
      ((evaluatePolynomial (sk :: rand) a : Nat) : ZMod L))).sum = (sk : ZMod L) := by
  have hlam : ∀ a ∈ sel, ∃ w : Nat,
      deriveInterpolatingValue a sel = some ((deriveInterpolatingValue a sel).getD 0) ∧
      (((sel.erase a).map (fun b => xbar b - xbar a)).prod) * (w : ZMod L) = 1 ∧
      (((deriveInterpolatingValue a sel).getD 0 : Nat) : ZMod L) =
        (((sel.erase a).map xbar).prod) * (w : ZMod L) := by
    intro a ha
    obtain ⟨lam, w, hd, hw1, hw2⟩ := deriveInterpolatingValue_ok a sel hnd hmem (hmem a ha)
    refine ⟨w, ?_, hw1, ?_⟩
    · rw [hd]
      rfl
    · rw [hd]
      exact hw2
  choose w hw using hlam
  classical
  have hxinj : ∀ a ∈ sel, ∀ b ∈ sel, xbar a = xbar b → a = b :=
    fun a ha b hb h => xbar_inj (hmem a ha) (hmem b hb) h
  have hinv : ∀ a ∈ sel,
      (((sel.erase a).map (fun b => xbar b - xbar a)).prod) *
        (if h : a ∈ sel then ((w a h : Nat) : ZMod L) else 0) = 1 := by
    intro a ha
    rw [dif_pos ha]
    exact (hw a ha).2.1
  have hf : (polyOfCoeffs ((sk :: rand).map (Nat.cast : Nat → ZMod L))).degree <
      (sel.length : WithBot Nat) := by
    apply lt_of_lt_of_le (degree_polyOfCoeffs_lt _)
    rw [List.length_map, List.length_cons]
    rw [Nat.cast_withBot, Nat.cast_withBot, WithBot.coe_le_coe]
    omega
  have hcong : sel.map (fun a => (((deriveInterpolatingValue a sel).getD 0 : Nat) : ZMod L) *
      ((evaluatePolynomial (sk :: rand) a : Nat) : ZMod L)) =
      sel.map (fun a => (polyOfCoeffs ((sk :: rand).map
          (Nat.cast : Nat → ZMod L))).eval (xbar a) *
        ((((sel.erase a).map xbar).prod) *
          (if h : a ∈ sel then ((w a h : Nat) : ZMod L) else 0))) := by
    apply List.map_congr_left
    intro a ha
    rw [cast_evaluatePolynomial, (hw a ha).2.2, dif_pos ha]
    ring
  rw [hcong, lagrange_interpolation sel xbar _ hnd hxinj hinv _ hf,
    List.map_cons, eval_polyOfCoeffs_zero]

/-- `createSigningPackage` succeeds when the commitment shares carry
exactly the (sufficiently many) participant ids, with the package holding
the derived binding factors and the group commitment
`Σ (Dᵢ + ρᵢ·Eᵢ)`. -/
theorem createSigningPackage_sel_ok (H : List Nat → Nat) (message : List Nat)
    (cs : List CommitmentShare) (sel : List Nat) (PK : Nat) (t : Nat)
    (hlen : t ≤ sel.length) (hcslen : cs.length = sel.length)
    (hcsid : cs.map (·.participantId) = sel) (hne : cs ≠ []) :
    ∃ R, createSigningPackage H message cs sel PK t =
        .ok ⟨sel, message, R, bindingFactorsFor H message cs sel PK⟩ ∧ R < L ∧
      ((R : Nat) : ZMod L) = (cs.map (fun s =>
        ((elementAdd s.hidingCommitment
          (scalarMultiply (computeBindingFactor H s.participantId (elementToBytes PK)
            (encodeGroupCommitmentList sel (commitmentListBytes cs)) message)
            s.bindingCommitment) : Nat) : ZMod L))).sum := by
  have hcov : ∀ s ∈ cs, (bindingFactorsFor H message cs sel PK).lookup s.participantId =
      some (computeBindingFactor H s.participantId (elementToBytes PK)
        (encodeGroupCommitmentList sel (commitmentListBytes cs)) message) := by
    intro s hs
    have hmem : s.participantId ∈ sel := hcsid ▸ List.mem_map_of_mem _ hs
    exact lookup_map_self _ sel s.participantId hmem
  obtain ⟨c0, crest, hcs⟩ := List.exists_cons_of_ne_nil hne
  subst hcs
  obtain ⟨R, hR, hRlt, hRcast⟩ := computeGroupCommitmentR_ok
    (bindingFactorsFor H message (c0 :: crest) sel PK)
    (fun id => computeBindingFactor H id (elementToBytes PK)
      (encodeGroupCommitmentList sel (commitmentListBytes (c0 :: crest))) message)
    c0 crest hcov
  refine ⟨R, ?_, hRlt, hRcast⟩
  rw [createSigningPackage, if_neg (by omega),
    if_neg (not_not_intro (by rw [hcslen])),
    if_neg (by rw [coverage_eq_false hcsid]; exact Bool.false_ne_true),
    hR]

/-- `thresholdSign` unfolded past its length check. -/
theorem thresholdSign_unfold (H : List Nat → Nat) (kps : List KeyPackage)
    (message : List Nat) (PK : Nat) (minSigners : Nat)
    (nonces : List (Nat × Nat)) (h : ¬ kps.length < minSigners) :
    thresholdSign H kps message PK minSigners nonces =
      match createSigningPackage H message
          ((kps.zip nonces).map (fun p => CommitmentShare.mk p.1.participantId
            (sign_round1 p.2).1 (sign_round1 p.2).2))
          (kps.map (·.participantId)) PK minSigners with
      | .error e => .error e
      | .ok pkg =>
        match roundTwoAll H pkg PK (kps.zip nonces) with
        | .error e => .error e
        | .ok shares => aggregateSignatures pkg shares minSigners := by
  rw [thresholdSign, if_neg h]

/-- `aggregateSignatures` succeeds when the shares carry exactly the
(sufficiently many) participant ids, returning the group commitment and
the reduced sum of the share values. -/
theorem aggregateSignatures_sel_ok (pkg : SigningPackage) (shares : List (Nat × Nat))
    (t : Nat) (hlen : t ≤ shares.length)
    (hid : shares.map (·.1) = pkg.participantIds)
    (hne : shares ≠ []) (hlt : ∀ s ∈ shares, s.2 < L) :
    ∃ z, aggregateSignatures pkg shares t = .ok (pkg.commitment, z) ∧ z < L ∧
      ((z : Nat) : ZMod L) = (shares.map (fun s => (s.2 : ZMod L))).sum := by
  obtain ⟨s0, srest, hsh⟩ := List.exists_cons_of_ne_nil hne
  subst hsh
  obtain ⟨hzlt, hzcast⟩ := foldl_scalarAdd_ok srest s0.2 (hlt s0 (List.mem_cons_self _ _))
  refine ⟨_, ?_, hzlt, ?_⟩
  · rw [aggregateSignatures, if_neg (by omega),
      if_neg (by rw [share_coverage_eq_false hid]; exact Bool.false_ne_true)]
  · rw [hzcast, List.map_cons, List.sum_cons]

/-- `thresholdSign` composed from the three stage results. -/
theorem thresholdSign_ok (H : List Nat → Nat) (kps : List KeyPackage)
    (message : List Nat) (PK : Nat) (minSigners : Nat)
    (nonces : List (Nat × Nat)) (pkg : SigningPackage)
    (shares : List (Nat × Nat)) (out : Except SignError (Nat × Nat))
    (hlt : ¬ kps.length < minSigners)
    (h1 : createSigningPackage H message
        ((kps.zip nonces).map (fun p => CommitmentShare.mk p.1.participantId
          (sign_round1 p.2).1 (sign_round1 p.2).2))
        (kps.map (·.participantId)) PK minSigners = .ok pkg)
    (h2 : roundTwoAll H pkg PK (kps.zip nonces) = .ok shares)
    (h3 : aggregateSignatures pkg shares minSigners = out) :
    thresholdSign H kps message PK minSigners nonces = out := by
  rw [thresholdSign, if_neg hlt]
  simp only [h1, h2]
  exact h3

/-! ## Claim C2 — binding-factor derivation -/

/-- C2, counterexample.  The claim states that the binding-factor hash
input begins with a domain-separation string (written `"…binding…"`)
before the ASCII participant id.  For participant id `1` with empty
verifying key, commitment list and message, the hash input computed by
`computeBindingFactor` is exactly the single byte `49` (ASCII `'1'`): the
input starts directly with the ASCII id and no domain-separation string
precedes it. -/
theorem C2_counterexample : bindingFactorInput 1 [] [] [] = [49] := by decide

/-- C2, amended.  For every participant id, group public key bytes,
encoded commitment list and message, the binding factor is
`H(id_ascii ‖ encode(PK) ‖ encoded_commitment_list ‖ message)` reduced
mod `ℓ` — with *no* domain-separation prefix: the hash input begins with
the ASCII participant id. -/
theorem C2_binding_factor_formula (H : List Nat → Nat) (id : Nat)
    (verifyingKey commitmentList message : List Nat) :
    computeBindingFactor H id verifyingKey commitmentList message =
      H (asciiDecimal id ++ verifyingKey ++ commitmentList ++ message) % L := rfl

/-! ## Claim C3 — non-canonical signature scalars -/

/-- C3.  The claim states that `verify` returns `false` whenever the last
32 bytes of the signature encode a non-canonical scalar (`z ≥ ℓ`).  In
fact `bytesToScalar` performs no canonicality check and `scalarMultiply`
reduces the scalar mod `ℓ`, so a signature whose scalar half encodes
`z + ℓ` verifies exactly like one encoding `z`: with the constant hash,
`R = 1, z = 2, PK = 1` verifies, and so does the non-canonical
`z = 2 + ℓ` (which still fits in 32 bytes). -/
theorem C3_verify_accepts_noncanonical_scalar :
    L ≤ 2 + L ∧ 2 + L < B256 ∧
    verify constHash 1 2 [] 1 = true ∧
    verify constHash 1 (2 + L) [] 1 = true := by
  refine ⟨Nat.le_add_left _ _, by decide, by decide, by decide⟩

/-! ## Claim C4 — commitment validation -/

/-- C4.  The claim states that `createSigningPackage` fails with an
`InvalidCommitment` error when a supplied commitment element is the
identity.  `FrostCoordinator.createSigningPackage` performs no such check
(`isIdentity`/`isInPrimeOrderSubgroup` of `src/cipher.ts` are never
called): with both the hiding and binding commitment equal to the
identity element (discrete logarithm `0`), the call succeeds and returns
a signing package (whose group commitment is itself the identity). -/
theorem C4_identity_commitment_accepted :
    createSigningPackage constHash [] [⟨1, 0, 0⟩] [1] 1 1 =
      .ok ⟨[1], [], 0, [(1, 1)]⟩ := by decide

/-! ## Claim C6 — aggregation share checks -/

/-- C6, counterexample.  The claim states that `aggregateSignatures`
fails with a `MismatchedShares` error whenever some share's participant
id does not appear in `signingPackage.participantIds`.  With a package
expecting only participant `1` and shares from participants `1` and `2`,
the call does not fail: it returns the signature, and the unexpected
share is even included in the sum (`z = (7 + 9) mod ℓ = 16`). -/
theorem C6_counterexample :
    aggregateSignatures ⟨[1], [], 5, [(1, 1)]⟩ [(1, 7), (2, 9)] 1 =
      .ok (5, 16) := by decide

/-- C6, amended.  `aggregateSignatures` checks only that at least
`minSigners` shares were supplied and that every expected participant id
has a share; shares from unexpected ids are not rejected — the call
succeeds and sums *all* supplied shares (including unexpected ones) into
`z`. -/
theorem C6_aggregate_accepts_unexpected (pkg : SigningPackage)
    (shares : List (Nat × Nat)) (minSigners : Nat)
    (hlen : minSigners ≤ shares.length)
    (hcov : ∀ id ∈ pkg.participantIds, ∃ s ∈ shares, s.1 = id)
    (hne : shares ≠ []) :
    aggregateSignatures pkg shares minSigners = .ok (pkg.commitment, sumShares shares) := by
  unfold aggregateSignatures
  rw [if_neg (by omega)]
  have hany : pkg.participantIds.any
      (fun id => ¬ shares.any (fun s => s.1 = id)) = false := by
    rw [List.any_eq_false]
    simp only [decide_not, Bool.not_eq_true', Bool.not_eq_false, List.any_eq_true,
      decide_eq_true_eq]
    exact hcov
  rw [if_neg (by rw [hany]; exact Bool.false_ne_true)]
  match shares, hne with
  | s :: rest, _ => rfl

/-- C6, witness for the amended theorem: a package expecting ids `3, 4`
with shares from `3, 4` and the unexpected `9` aggregates successfully,
summing all three shares. -/
theorem C6_witness :
    aggregateSignatures ⟨[3, 4], [], 8, [(3, 1), (4, 1)]⟩
      [(3, 2), (4, 10), (9, 100)] 2 = .ok (8, sumShares [(3, 2), (4, 10), (9, 100)]) :=
  C6_aggregate_accepts_unexpected ⟨[3, 4], [], 8, [(3, 1), (4, 1)]⟩
    [(3, 2), (4, 10), (9, 100)] 2 (by decide)
    (by intro id hid; fin_cases hid
        · exact ⟨(3, 2), by decide, rfl⟩
        · exact ⟨(4, 10), by decide, rfl⟩)
    (by decide)

/-! ## Claim C7 — threshold enforcement -/

/-- C7.  For every message, commitment-share list and participant-id list
shorter than the configured threshold `minSigners`,
`createSigningPackage` fails with the `InsufficientSigners` error
(`'Insufficient number of signers'`) and produces no signing package. -/
theorem C7_insufficient_signers (H : List Nat → Nat) (message : List Nat)
    (commitmentShares : List CommitmentShare) (participantIds : List Nat)
    (PK minSigners : Nat) (h : participantIds.length < minSigners) :
    createSigningPackage H message commitmentShares participantIds PK minSigners =
      .error .insufficientSigners := by
  unfold createSigningPackage
  rw [if_pos h]

/-- C7, witness: a 3-of-4 style call with only 2 participant ids fails
with `InsufficientSigners`. -/
theorem C7_witness :
    ([1, 2] : List Nat).length < 3 ∧
    createSigningPackage constHash [] [⟨1, 1, 1⟩, ⟨2, 1, 1⟩] [1, 2] 1 3 =
      .error .insufficientSigners :=
  ⟨by decide, C7_insufficient_signers constHash [] [⟨1, 1, 1⟩, ⟨2, 1, 1⟩] [1, 2] 1 3 (by decide)⟩

/-! ## Claim C8 — ordering of the signing package -/

/-- C8, counterexample.  The claim states that `createSigningPackage`
sorts by participant id before encoding and returns
`SigningPackage.participantIds` sorted ascending.  Calling it with the
ids in the order `[2, 1]` succeeds and returns `participantIds = [2, 1]`,
not the ascending `[1, 2]`; the commitment list and binding factors are
likewise processed in the given order. -/
theorem C8_counterexample :
    createSigningPackage constHash [] [⟨2, 1, 1⟩, ⟨1, 1, 1⟩] [2, 1] 1 1 =
      .ok ⟨[2, 1], [], 4, [(2, 1), (1, 1)]⟩ ∧ ([2, 1] : List Nat) ≠ [1, 2] := by
  exact ⟨by decide, by decide⟩

/-- C8, amended.  `createSigningPackage` performs no sorting: whenever it
succeeds, the returned `participantIds` is exactly the input id list in
its original order, and the binding factors are keyed in that same
order. -/
theorem C8_order_preserved (H : List Nat → Nat) (message : List Nat)
    (commitmentShares : List CommitmentShare) (participantIds : List Nat)
    (PK minSigners : Nat) (p : SigningPackage)
    (h : createSigningPackage H message commitmentShares participantIds PK minSigners =
      .ok p) :
    p.participantIds = participantIds ∧
      p.bindingFactors.map Prod.fst = participantIds := by
  unfold createSigningPackage at h
  split at h
  · exact absurd h (by simp)
  split at h
  · exact absurd h (by simp)
  split at h
  · exact absurd h (by simp)
  split at h
  · exact absurd h (by simp)
  next R hR =>
    injection h with h
    subst h
    refine ⟨rfl, ?_⟩
    simp [bindingFactorsFor, Function.comp_def]

/-- C8, witness for the amended theorem: a concrete successful call whose
output package carries the input ids `[5]` unchanged. -/
theorem C8_witness :
    (SigningPackage.mk [5] [] 2 [(5, 1)]).participantIds = [5] ∧
      (SigningPackage.mk [5] [] 2 [(5, 1)]).bindingFactors.map Prod.fst = [5] :=
  C8_order_preserved constHash [] [⟨5, 1, 1⟩] [5] 1 1 _ (by decide)

/-! ## Claim C9 — nonce single-use -/

/-- C9.  The claim states that a second invocation of `sign_round2` with
the same `Nonces` value is refused (or the nonces are consumed).
`FrostSigner.sign_round2` is a pure function of the signing package, the
nonces and the verifying key: it mutates no signer state, does not erase
or invalidate the `Nonces` object, and keeps no record of prior use — so
every invocation with the same nonces succeeds and returns the same
signature share.  Concretely, with package `⟨[1], [], 2, [(1,1)]⟩`,
nonces `(1, 1)` and key share `1`, the call returns the share `(1, 3)`,
and calling it again returns the identical successful result instead of
being refused. -/
theorem C9_round2_reuse_not_refused :
    sign_round2 constHash ⟨1, 1⟩ ⟨[1], [], 2, [(1, 1)]⟩ (1, 1) 1 = .ok (1, 3) ∧
    (sign_round2 constHash ⟨1, 1⟩ ⟨[1], [], 2, [(1, 1)]⟩ (1, 1) 1,
     sign_round2 constHash ⟨1, 1⟩ ⟨[1], [], 2, [(1, 1)]⟩ (1, 1) 1) =
      (.ok (1, 3), .ok (1, 3)) := by
  exact ⟨by decide, by decide⟩

/-! ## Claim C10 — the zero-scalar substitution in `scalarMultiply` -/

/-- C10.  For every group element `P` and every scalar value congruent to
`0 mod ℓ`, `scalarMultiply` silently substitutes the scalar `1` and
returns `P` itself — it neither returns the identity element nor raises
an error; consequently `verify` treats a signature scalar `z ≡ 0 (mod ℓ)`
exactly as if `z` were `1`. -/
theorem C10_zero_scalar_becomes_one :
    (∀ s P, s % L = 0 → P < L → scalarMultiply s P = P) ∧
    (∀ (H : List Nat → Nat) (R z : Nat) (message : List Nat) (PK : Nat),
      z % L = 0 → verify H R z message PK = verify H R 1 message PK) := by
  constructor
  · intro s P hs hP
    unfold scalarMultiply
    rw [if_pos hs, one_mul, Nat.mod_eq_of_lt hP]
  · intro H R z message PK hz
    unfold verify scalarMultiply
    rw [if_pos hz]
    have h1 : (1 : Nat) % L = 1 := Nat.mod_eq_of_lt (by decide)
    rw [h1, if_neg one_ne_zero]

/-- C10, witness: `scalarMultiply 0 5 = 5` (not the identity, no error),
and `verify` on the scalar `0` coincides with `verify` on the scalar
`1`. -/
theorem C10_witness :
    (0 % L = 0 ∧ 5 < L ∧ scalarMultiply 0 5 = 5) ∧
    (0 % L = 0 ∧ verify constHash 1 0 [] 1 = verify constHash 1 1 [] 1) :=
  ⟨⟨by decide, by decide, C10_zero_scalar_becomes_one.1 0 5 (by decide) (by decide)⟩,
   ⟨by decide, C10_zero_scalar_becomes_one.2 constHash 1 0 [] 1 (by decide)⟩⟩

/-! ## Claims C1 and C5 — counterexamples beyond 16 participants

`scalarFromInt` embeds a participant id `v < 256` as `v · 2^248`.  For
`v ≥ 17` this exceeds the group order `ℓ`, so the byte-wise
`scalarNegate` wraps modulo `2^256` and the Lagrange denominators
computed by `deriveInterpolatingValue`/`recover` are off by
`2^256 mod ℓ ≠ 0`: the interpolation is wrong whenever a participant id
`≥ 17` takes part. -/

/-- C1, counterexample.  The claim quantifies over *every* configuration
`1 ≤ t ≤ n` (the spec's testable property restricts to `n ≤ 16`).  For
`(t, n) = (2, 17)` with secret `sk = 1`, polynomial coefficient `1`,
message `[]`, all round-1 nonces `1` and the subset `{1, 17}` of the key
packages of `split`, the full protocol (`thresholdSign`) produces a
signature that `verify` rejects: the Lagrange coefficient of participant
`17` is corrupted by the `2^256` wrap-around in `scalarNegate`. -/
theorem C1_counterexample :
    thresholdSign constHash [makeKeyPackage 1 [1] 1, makeKeyPackage 1 [1] 17] []
        (groupPublicKey 1) 2 [(1, 1), (1, 1)] =
      .ok (4, 1960022343860821016284404694157477606896837266489494434916738866858789601213) ∧
    verify constHash 4
      1960022343860821016284404694157477606896837266489494434916738866858789601213 []
      (groupPublicKey 1) = false := by
  exact ⟨by decide, by decide⟩

/-- C5, counterexample.  The claim quantifies over every configuration
`1 ≤ t ≤ n` and all quorums.  For `(t, n) = (2, 17)`, secret `sk = 1` and
polynomial coefficient `1`, the quorum `{1, 2}` recovers `1` (the
original secret) but the quorum `{1, 17}` recovers a different scalar:
`recover` is inconsistent across quorums and wrong for the second one,
again because of the `2^256` wrap-around for ids `≥ 17`. -/
theorem C5_counterexample :
    recover [makeKeyPackage 1 [1] 1, makeKeyPackage 1 [1] 2] 2 = .ok 1 ∧
    recover [makeKeyPackage 1 [1] 1, makeKeyPackage 1 [1] 17] 2 =
      .ok 3829582118004988754894144556276917785787006333162606826315765087916848223018 ∧
    (3829582118004988754894144556276917785787006333162606826315765087916848223018 : Nat) ≠ 1 := by
  exact ⟨by decide, by decide, by decide⟩

/-- **C5** (corrected): quorum consistency of `split`/`recover` holds with
participant ids bounded by 16, and the recovered value is the secret
reduced mod `L`: for any secret `sk`, random coefficients `rand` with
`|rand| < t`, and any two selections of at least `t` distinct ids at most
16, `recover` of the corresponding split packages returns `sk mod L` for
both selections; in particular the two quorums agree, and a reduced
secret is recovered exactly. -/
theorem C5_recover_consistent (sk : Nat) (rand : List Nat) (t : Nat)
    (sel1 sel2 : List Nat) (ht : rand.length < t)
    (hlen1 : t ≤ sel1.length) (hlen2 : t ≤ sel2.length)
    (hnd1 : (sel1.take t).Nodup) (hnd2 : (sel2.take t).Nodup)
    (hmem1 : ∀ id ∈ sel1.take t, id ≤ 16) (hmem2 : ∀ id ∈ sel2.take t, id ≤ 16) :
    recover (sel1.map (makeKeyPackage sk rand)) t = .ok (sk % L) ∧
    recover (sel2.map (makeKeyPackage sk rand)) t = .ok (sk % L) :=
  ⟨recover_split_ok sk rand t sel1 ht hlen1 hnd1 hmem1,
   recover_split_ok sk rand t sel2 ht hlen2 hnd2 hmem2⟩

/-- Witness for C5: a 2-of-4 split of the secret 5 with random
coefficient 7 recovers 5 from the quorum {1, 2} and from the quorum
{3, 4}. -/
theorem C5_witness :
    recover ([1, 2].map (makeKeyPackage 5 [7])) 2 = .ok (5 % L) ∧
    recover ([3, 4].map (makeKeyPackage 5 [7])) 2 = .ok (5 % L) :=
  C5_recover_consistent 5 [7] 2 [1, 2] [3, 4] (by decide) (by decide) (by decide)
    (by decide) (by decide) (by decide) (by decide)

/-- **C1** (corrected): the whole-protocol correctness holds with
participant ids at most 16 (matching the spec's testable bound `n ≤ 16`;
the counterexample below shows failure at id 17), nonces and secret not
≡ 0 mod `L`, a hash that never returns 0 mod `L`, and the caveat that a
signature scalar `z ≡ 0 mod L` is mangled by the zero-scalar substitution
of `scalarMultiply`: under these conditions `thresholdSign` succeeds and
`verify` accepts the resulting signature. -/
theorem C1_threshold_sign_verifies (H : List Nat → Nat) (sk : Nat) (rand : List Nat)
    (t : Nat) (sel : List Nat) (message : List Nat) (nonces : List (Nat × Nat))
    (ht : rand.length < t) (hlen : t ≤ sel.length)
    (hnd : sel.Nodup) (hmem : ∀ id ∈ sel, id ≤ 16)
    (hnlen : nonces.length = sel.length)
    (hsk : sk % L ≠ 0)
    (hnz : ∀ p ∈ nonces, p.1 % L ≠ 0 ∧ p.2 % L ≠ 0)
    (hH : ∀ bs, H bs % L ≠ 0) :
    ∃ R z, thresholdSign H (sel.map (makeKeyPackage sk rand)) message
        (groupPublicKey sk) t nonces = .ok (R, z) ∧
      (z % L ≠ 0 → verify H R z message (groupPublicKey sk) = true) := by
  classical
  set kps := sel.map (makeKeyPackage sk rand) with hkpsdef
  have hkl : kps.length = sel.length := by rw [hkpsdef, List.length_map]
  have hple : kps.length ≤ nonces.length := by omega
  have hpairslen : (kps.zip nonces).length = sel.length := by
    rw [List.length_zip]; omega
  have hfst : (kps.zip nonces).map Prod.fst = kps := List.map_fst_zip kps nonces hple
  have hpid : kps.map (·.participantId) = sel := by
    rw [hkpsdef, List.map_map]
    simp [Function.comp_def, makeKeyPackage]
  have hmemkp : ∀ p ∈ (kps.zip nonces), p.1.participantId ∈ sel := by
    intro p hp
    have h1 : p.1 ∈ kps := (List.of_mem_zip hp).1
    rw [← hpid]
    exact List.mem_map_of_mem _ h1
  have hnzp : ∀ p ∈ (kps.zip nonces), p.2.1 % L ≠ 0 ∧ p.2.2 % L ≠ 0 := by
    intro p hp
    exact hnz p.2 (List.of_mem_zip hp).2
  have hcsid : ((kps.zip nonces).map (fun p : KeyPackage × (Nat × Nat) => CommitmentShare.mk p.1.participantId (sign_round1 p.2).1 (sign_round1 p.2).2)).map (·.participantId) = sel := by
    have h1 : ((kps.zip nonces).map Prod.fst).map (·.participantId) = sel := by rw [hfst, hpid]
    rw [List.map_map] at h1 ⊢
    exact h1
  have hcslen : ((kps.zip nonces).map (fun p : KeyPackage × (Nat × Nat) => CommitmentShare.mk p.1.participantId (sign_round1 p.2).1 (sign_round1 p.2).2)).length = sel.length := by rw [List.length_map, hpairslen]
  have hcsne : ((kps.zip nonces).map (fun p : KeyPackage × (Nat × Nat) => CommitmentShare.mk p.1.participantId (sign_round1 p.2).1 (sign_round1 p.2).2)) ≠ [] := by
    intro hnil
    rw [hnil] at hcslen
    simp at hcslen
    omega
  obtain ⟨R0, hpkgeq, hRlt, hRcast⟩ := createSigningPackage_sel_ok H message ((kps.zip nonces).map (fun p : KeyPackage × (Nat × Nat) => CommitmentShare.mk p.1.participantId (sign_round1 p.2).1 (sign_round1 p.2).2))
    sel (groupPublicKey sk) t hlen hcslen hcsid hcsne
  have h1 : createSigningPackage H message ((kps.zip nonces).map (fun p : KeyPackage × (Nat × Nat) => CommitmentShare.mk p.1.participantId (sign_round1 p.2).1 (sign_round1 p.2).2)) (kps.map (·.participantId)) (groupPublicKey sk) t =
      .ok (SigningPackage.mk sel message R0 (bindingFactorsFor H message ((kps.zip nonces).map (fun p : KeyPackage × (Nat × Nat) => CommitmentShare.mk p.1.participantId (sign_round1 p.2).1 (sign_round1 p.2).2)) sel (groupPublicKey sk))) := by
    rw [hpid]
    exact hpkgeq
  have hrho_nz : ∀ id : Nat, (computeBindingFactor H id (elementToBytes (groupPublicKey sk)) (encodeGroupCommitmentList sel (commitmentListBytes ((kps.zip nonces).map (fun p : KeyPackage × (Nat × Nat) => CommitmentShare.mk p.1.participantId (sign_round1 p.2).1 (sign_round1 p.2).2)))) message) % L ≠ 0 := by
    intro id
    show (H _ % L) % L ≠ 0
    rw [Nat.mod_mod_of_dvd _ dvd_rfl]
    exact hH _
  have hc_nz : (computeChallenge H (elementToBytes R0) (elementToBytes (groupPublicKey sk)) message) % L ≠ 0 := by
    show (H _ % L) % L ≠ 0
    rw [Nat.mod_mod_of_dvd _ dvd_rfl]
    exact hH _
  have hr : ∀ p ∈ (kps.zip nonces), ((bindingFactorsFor H message ((kps.zip nonces).map (fun p : KeyPackage × (Nat × Nat) => CommitmentShare.mk p.1.participantId (sign_round1 p.2).1 (sign_round1 p.2).2)) sel (groupPublicKey sk))).lookup p.1.participantId =
      some ((fun id => computeBindingFactor H id (elementToBytes (groupPublicKey sk)) (encodeGroupCommitmentList sel (commitmentListBytes ((kps.zip nonces).map (fun p : KeyPackage × (Nat × Nat) => CommitmentShare.mk p.1.participantId (sign_round1 p.2).1 (sign_round1 p.2).2)))) message) p.1.participantId) := by
    intro p hp
    exact lookup_map_self (fun id => computeBindingFactor H id (elementToBytes (groupPublicKey sk)) (encodeGroupCommitmentList sel (commitmentListBytes ((kps.zip nonces).map (fun p : KeyPackage × (Nat × Nat) => CommitmentShare.mk p.1.participantId (sign_round1 p.2).1 (sign_round1 p.2).2)))) message) sel p.1.participantId (hmemkp p hp)
  have hl : ∀ p ∈ (kps.zip nonces), deriveInterpolatingValue p.1.participantId sel =
      some ((deriveInterpolatingValue p.1.participantId sel).getD 0) := by
    intro p hp
    obtain ⟨lam, w, hd, _, _⟩ := deriveInterpolatingValue_ok p.1.participantId sel
      hnd hmem (hmem _ (hmemkp p hp))
    rw [hd]
    rfl
  have h2 : roundTwoAll H (SigningPackage.mk sel message R0 (bindingFactorsFor H message ((kps.zip nonces).map (fun p : KeyPackage × (Nat × Nat) => CommitmentShare.mk p.1.participantId (sign_round1 p.2).1 (sign_round1 p.2).2)) sel (groupPublicKey sk))) (groupPublicKey sk) (kps.zip nonces) = .ok ((kps.zip nonces).map (fun p : KeyPackage × (Nat × Nat) => (p.1.participantId, scalarAdd (scalarAdd p.2.1 (scalarMultiplyScalar p.2.2 (computeBindingFactor H p.1.participantId (elementToBytes (groupPublicKey sk)) (encodeGroupCommitmentList sel (commitmentListBytes ((kps.zip nonces).map (fun p : KeyPackage × (Nat × Nat) => CommitmentShare.mk p.1.participantId (sign_round1 p.2).1 (sign_round1 p.2).2)))) message))) (scalarMultiplyScalar (scalarMultiplyScalar ((deriveInterpolatingValue p.1.participantId sel).getD 0) p.1.privateShare) (computeChallenge H (elementToBytes R0) (elementToBytes (groupPublicKey sk)) message))))) :=
    roundTwoAll_ok H (SigningPackage.mk sel message R0 (bindingFactorsFor H message ((kps.zip nonces).map (fun p : KeyPackage × (Nat × Nat) => CommitmentShare.mk p.1.participantId (sign_round1 p.2).1 (sign_round1 p.2).2)) sel (groupPublicKey sk))) (groupPublicKey sk) (fun id => computeBindingFactor H id (elementToBytes (groupPublicKey sk)) (encodeGroupCommitmentList sel (commitmentListBytes ((kps.zip nonces).map (fun p : KeyPackage × (Nat × Nat) => CommitmentShare.mk p.1.participantId (sign_round1 p.2).1 (sign_round1 p.2).2)))) message)
      (fun id => (deriveInterpolatingValue id sel).getD 0) (kps.zip nonces) hmemkp hr hl
  have hshid : ((kps.zip nonces).map (fun p : KeyPackage × (Nat × Nat) => (p.1.participantId, scalarAdd (scalarAdd p.2.1 (scalarMultiplyScalar p.2.2 (computeBindingFactor H p.1.participantId (elementToBytes (groupPublicKey sk)) (encodeGroupCommitmentList sel (commitmentListBytes ((kps.zip nonces).map (fun p : KeyPackage × (Nat × Nat) => CommitmentShare.mk p.1.participantId (sign_round1 p.2).1 (sign_round1 p.2).2)))) message))) (scalarMultiplyScalar (scalarMultiplyScalar ((deriveInterpolatingValue p.1.participantId sel).getD 0) p.1.privateShare) (computeChallenge H (elementToBytes R0) (elementToBytes (groupPublicKey sk)) message))))).map (·.1) = sel := by
    have h1 : ((kps.zip nonces).map Prod.fst).map (·.participantId) = sel := by rw [hfst, hpid]
    rw [List.map_map] at h1 ⊢
    exact h1
  have hshlen : ((kps.zip nonces).map (fun p : KeyPackage × (Nat × Nat) => (p.1.participantId, scalarAdd (scalarAdd p.2.1 (scalarMultiplyScalar p.2.2 (computeBindingFactor H p.1.participantId (elementToBytes (groupPublicKey sk)) (encodeGroupCommitmentList sel (commitmentListBytes ((kps.zip nonces).map (fun p : KeyPackage × (Nat × Nat) => CommitmentShare.mk p.1.participantId (sign_round1 p.2).1 (sign_round1 p.2).2)))) message))) (scalarMultiplyScalar (scalarMultiplyScalar ((deriveInterpolatingValue p.1.participantId sel).getD 0) p.1.privateShare) (computeChallenge H (elementToBytes R0) (elementToBytes (groupPublicKey sk)) message))))).length = sel.length := by rw [List.length_map, hpairslen]
  have hshne : ((kps.zip nonces).map (fun p : KeyPackage × (Nat × Nat) => (p.1.participantId, scalarAdd (scalarAdd p.2.1 (scalarMultiplyScalar p.2.2 (computeBindingFactor H p.1.participantId (elementToBytes (groupPublicKey sk)) (encodeGroupCommitmentList sel (commitmentListBytes ((kps.zip nonces).map (fun p : KeyPackage × (Nat × Nat) => CommitmentShare.mk p.1.participantId (sign_round1 p.2).1 (sign_round1 p.2).2)))) message))) (scalarMultiplyScalar (scalarMultiplyScalar ((deriveInterpolatingValue p.1.participantId sel).getD 0) p.1.privateShare) (computeChallenge H (elementToBytes R0) (elementToBytes (groupPublicKey sk)) message))))) ≠ [] := by
    intro hnil
    rw [hnil] at hshlen
    simp at hshlen
    omega
  have hshlt : ∀ s ∈ ((kps.zip nonces).map (fun p : KeyPackage × (Nat × Nat) => (p.1.participantId, scalarAdd (scalarAdd p.2.1 (scalarMultiplyScalar p.2.2 (computeBindingFactor H p.1.participantId (elementToBytes (groupPublicKey sk)) (encodeGroupCommitmentList sel (commitmentListBytes ((kps.zip nonces).map (fun p : KeyPackage × (Nat × Nat) => CommitmentShare.mk p.1.participantId (sign_round1 p.2).1 (sign_round1 p.2).2)))) message))) (scalarMultiplyScalar (scalarMultiplyScalar ((deriveInterpolatingValue p.1.participantId sel).getD 0) p.1.privateShare) (computeChallenge H (elementToBytes R0) (elementToBytes (groupPublicKey sk)) message))))), s.2 < L := by
    intro s hs
    obtain ⟨p, _, rfl⟩ := List.mem_map.1 hs
    exact scalarAdd_lt _ _
  obtain ⟨z0, hagg, hzlt, hzcast⟩ := aggregateSignatures_sel_ok (SigningPackage.mk sel message R0 (bindingFactorsFor H message ((kps.zip nonces).map (fun p : KeyPackage × (Nat × Nat) => CommitmentShare.mk p.1.participantId (sign_round1 p.2).1 (sign_round1 p.2).2)) sel (groupPublicKey sk))) ((kps.zip nonces).map (fun p : KeyPackage × (Nat × Nat) => (p.1.participantId, scalarAdd (scalarAdd p.2.1 (scalarMultiplyScalar p.2.2 (computeBindingFactor H p.1.participantId (elementToBytes (groupPublicKey sk)) (encodeGroupCommitmentList sel (commitmentListBytes ((kps.zip nonces).map (fun p : KeyPackage × (Nat × Nat) => CommitmentShare.mk p.1.participantId (sign_round1 p.2).1 (sign_round1 p.2).2)))) message))) (scalarMultiplyScalar (scalarMultiplyScalar ((deriveInterpolatingValue p.1.participantId sel).getD 0) p.1.privateShare) (computeChallenge H (elementToBytes R0) (elementToBytes (groupPublicKey sk)) message))))) t
    (by rw [hshlen]; exact hlen) hshid hshne hshlt
  have hrun : thresholdSign H kps message (groupPublicKey sk) t nonces = .ok (R0, z0) :=
    thresholdSign_ok H kps message (groupPublicKey sk) t nonces (SigningPackage.mk sel message R0 (bindingFactorsFor H message ((kps.zip nonces).map (fun p : KeyPackage × (Nat × Nat) => CommitmentShare.mk p.1.participantId (sign_round1 p.2).1 (sign_round1 p.2).2)) sel (groupPublicKey sk))) ((kps.zip nonces).map (fun p : KeyPackage × (Nat × Nat) => (p.1.participantId, scalarAdd (scalarAdd p.2.1 (scalarMultiplyScalar p.2.2 (computeBindingFactor H p.1.participantId (elementToBytes (groupPublicKey sk)) (encodeGroupCommitmentList sel (commitmentListBytes ((kps.zip nonces).map (fun p : KeyPackage × (Nat × Nat) => CommitmentShare.mk p.1.participantId (sign_round1 p.2).1 (sign_round1 p.2).2)))) message))) (scalarMultiplyScalar (scalarMultiplyScalar ((deriveInterpolatingValue p.1.participantId sel).getD 0) p.1.privateShare) (computeChallenge H (elementToBytes R0) (elementToBytes (groupPublicKey sk)) message))))) (.ok (R0, z0))
      (by omega) h1 h2 hagg
  have hz2 : ((z0 : Nat) : ZMod L) = ((kps.zip nonces).map (fun p =>
      ((p.2.1 : Nat) : ZMod L) + ((p.2.2 : Nat) : ZMod L) *
        (((computeBindingFactor H p.1.participantId (elementToBytes (groupPublicKey sk)) (encodeGroupCommitmentList sel (commitmentListBytes ((kps.zip nonces).map (fun p : KeyPackage × (Nat × Nat) => CommitmentShare.mk p.1.participantId (sign_round1 p.2).1 (sign_round1 p.2).2)))) message) : Nat) : ZMod L) +
      ((((deriveInterpolatingValue p.1.participantId sel).getD 0) : Nat) : ZMod L) *
        ((p.1.privateShare : Nat) : ZMod L) * (((computeChallenge H (elementToBytes R0) (elementToBytes (groupPublicKey sk)) message) : Nat) : ZMod L))).sum := by
    rw [hzcast, List.map_map]
    congr 1
    apply List.map_congr_left
    intro p _
    show ((scalarAdd (scalarAdd p.2.1 (scalarMultiplyScalar p.2.2
        (computeBindingFactor H p.1.participantId (elementToBytes (groupPublicKey sk)) (encodeGroupCommitmentList sel (commitmentListBytes ((kps.zip nonces).map (fun p : KeyPackage × (Nat × Nat) => CommitmentShare.mk p.1.participantId (sign_round1 p.2).1 (sign_round1 p.2).2)))) message)))
      (scalarMultiplyScalar (scalarMultiplyScalar ((deriveInterpolatingValue p.1.participantId sel).getD 0)
        p.1.privateShare) (computeChallenge H (elementToBytes R0) (elementToBytes (groupPublicKey sk)) message)) : Nat) : ZMod L) = _
    rw [cast_scalarAdd, cast_scalarAdd, cast_scalarMultiplyScalar,
      cast_scalarMultiplyScalar, cast_scalarMultiplyScalar]
  rw [List.sum_map_add] at hz2
  have hkeysum : ((kps.zip nonces).map (fun p =>
      ((((deriveInterpolatingValue p.1.participantId sel).getD 0) : Nat) : ZMod L) *
        ((p.1.privateShare : Nat) : ZMod L) * (((computeChallenge H (elementToBytes R0) (elementToBytes (groupPublicKey sk)) message) : Nat) : ZMod L))).sum =
      (((computeChallenge H (elementToBytes R0) (elementToBytes (groupPublicKey sk)) message) : Nat) : ZMod L) * ((sk : Nat) : ZMod L) := by
    have hstep1 : (kps.zip nonces).map (fun p =>
        ((((deriveInterpolatingValue p.1.participantId sel).getD 0) : Nat) : ZMod L) *
          ((p.1.privateShare : Nat) : ZMod L) * (((computeChallenge H (elementToBytes R0) (elementToBytes (groupPublicKey sk)) message) : Nat) : ZMod L)) =
        (kps.zip nonces).map (fun p => (((computeChallenge H (elementToBytes R0) (elementToBytes (groupPublicKey sk)) message) : Nat) : ZMod L) *
          (((((deriveInterpolatingValue p.1.participantId sel).getD 0) : Nat) : ZMod L) *
            ((p.1.privateShare : Nat) : ZMod L))) := by
      apply List.map_congr_left
      intro p _
      ring
    rw [hstep1, List.sum_map_mul_left]
    congr 1
    have hstep2 : ((kps.zip nonces).map Prod.fst).map (fun kp =>
        ((((deriveInterpolatingValue kp.participantId sel).getD 0) : Nat) : ZMod L) *
          ((kp.privateShare : Nat) : ZMod L)) =
        (kps.zip nonces).map (fun p =>
          ((((deriveInterpolatingValue p.1.participantId sel).getD 0) : Nat) : ZMod L) *
            ((p.1.privateShare : Nat) : ZMod L)) := by
      rw [List.map_map]
      exact List.map_congr_left (fun p _ => rfl)
    rw [← hstep2, hfst]
    have hstep3 : kps.map (fun kp =>
        ((((deriveInterpolatingValue kp.participantId sel).getD 0) : Nat) : ZMod L) *
          ((kp.privateShare : Nat) : ZMod L)) =
        sel.map (fun a =>
          ((((deriveInterpolatingValue a sel).getD 0) : Nat) : ZMod L) *
            ((evaluatePolynomial (sk :: rand) a : Nat) : ZMod L)) := by
      rw [hkpsdef, List.map_map]
      rfl
    rw [hstep3]
    exact interpolation_sum_eq sk rand sel (by omega) hnd hmem
  have hRsum : ((R0 : Nat) : ZMod L) = ((kps.zip nonces).map (fun p =>
      ((p.2.1 : Nat) : ZMod L) +
        (((computeBindingFactor H p.1.participantId (elementToBytes (groupPublicKey sk)) (encodeGroupCommitmentList sel (commitmentListBytes ((kps.zip nonces).map (fun p : KeyPackage × (Nat × Nat) => CommitmentShare.mk p.1.participantId (sign_round1 p.2).1 (sign_round1 p.2).2)))) message) : Nat) : ZMod L) *
          ((p.2.2 : Nat) : ZMod L))).sum := by
    rw [hRcast, List.map_map]
    congr 1
    apply List.map_congr_left
    intro p hp
    show ((elementAdd (scalarMultiply p.2.1 baseElement)
      (scalarMultiply (computeBindingFactor H p.1.participantId (elementToBytes (groupPublicKey sk)) (encodeGroupCommitmentList sel (commitmentListBytes ((kps.zip nonces).map (fun p : KeyPackage × (Nat × Nat) => CommitmentShare.mk p.1.participantId (sign_round1 p.2).1 (sign_round1 p.2).2)))) message)
        (scalarMultiply p.2.2 baseElement)) : Nat) : ZMod L) = _
    rw [cast_elementAdd, cast_scalarMultiply _ (hrho_nz p.1.participantId),
      cast_scalarMultiply _ (hnzp p hp).1, cast_scalarMultiply _ (hnzp p hp).2]
    simp only [baseElement, Nat.cast_one, mul_one]
  have hswap : ((kps.zip nonces).map (fun p =>
      ((p.2.1 : Nat) : ZMod L) + ((p.2.2 : Nat) : ZMod L) *
        (((computeBindingFactor H p.1.participantId (elementToBytes (groupPublicKey sk)) (encodeGroupCommitmentList sel (commitmentListBytes ((kps.zip nonces).map (fun p : KeyPackage × (Nat × Nat) => CommitmentShare.mk p.1.participantId (sign_round1 p.2).1 (sign_round1 p.2).2)))) message) : Nat) : ZMod L))).sum =
      ((kps.zip nonces).map (fun p =>
      ((p.2.1 : Nat) : ZMod L) +
        (((computeBindingFactor H p.1.participantId (elementToBytes (groupPublicKey sk)) (encodeGroupCommitmentList sel (commitmentListBytes ((kps.zip nonces).map (fun p : KeyPackage × (Nat × Nat) => CommitmentShare.mk p.1.participantId (sign_round1 p.2).1 (sign_round1 p.2).2)))) message) : Nat) : ZMod L) *
          ((p.2.2 : Nat) : ZMod L))).sum := by
    congr 1
    apply List.map_congr_left
    intro p _
    ring
  rw [hkeysum, hswap, ← hRsum] at hz2
  refine ⟨R0, z0, hrun, fun hz => ?_⟩
  have hPK : groupPublicKey sk = sk % L := by
    rw [groupPublicKey, scalarMultiply, if_neg hsk, baseElement, Nat.mul_one,
      Nat.mod_mod_of_dvd _ dvd_rfl]
  apply verify_eq_true
  have hlt2 : elementAdd R0 (scalarMultiply (computeChallenge H (elementToBytes R0) (elementToBytes (groupPublicKey sk)) message) (groupPublicKey sk)) < L := elementAdd_lt _ _
  have hcast2 : ((z0 : Nat) : ZMod L) =
      ((elementAdd R0 (scalarMultiply (computeChallenge H (elementToBytes R0) (elementToBytes (groupPublicKey sk)) message) (groupPublicKey sk)) : Nat) : ZMod L) := by
    rw [cast_elementAdd, cast_scalarMultiply _ hc_nz, hz2]
    congr 1
    congr 1
    rw [hPK, cast_mod_L]
  have hzeq : z0 = elementAdd R0 (scalarMultiply (computeChallenge H (elementToBytes R0) (elementToBytes (groupPublicKey sk)) message) (groupPublicKey sk)) := by
    calc z0 = (((z0 : Nat) : ZMod L)).val := (ZMod.val_natCast_of_lt hzlt).symm
      _ = (((elementAdd R0 (scalarMultiply (computeChallenge H (elementToBytes R0) (elementToBytes (groupPublicKey sk)) message) (groupPublicKey sk)) : Nat) : ZMod L)).val := by
        rw [hcast2]
      _ = elementAdd R0 (scalarMultiply (computeChallenge H (elementToBytes R0) (elementToBytes (groupPublicKey sk)) message) (groupPublicKey sk)) := ZMod.val_natCast_of_lt hlt2
  show scalarMultiply z0 baseElement = _
  rw [scalarMultiply, if_neg hz, baseElement, Nat.mul_one,
    Nat.mod_mod_of_dvd _ dvd_rfl, Nat.mod_eq_of_lt hzlt]
  exact hzeq

/-- Witness for C1: a 1-of-1 signing of the empty message with secret 5
and nonces `(2, 3)` produces the signature `(5, 10)`, which verifies. -/
theorem C1_witness :
    thresholdSign constHash ([1].map (makeKeyPackage 5 [])) [] (groupPublicKey 5) 1
      [(2, 3)] = .ok (5, 10) ∧
    verify constHash 5 10 [] (groupPublicKey 5) = true := by
  obtain ⟨R, z, h1, h2⟩ := C1_threshold_sign_verifies constHash 5 [] 1 [1] [] [(2, 3)]
    (by decide) (by decide) (by decide) (by decide) (by decide) (by decide)
    (by decide) (fun bs => (by decide : (1 : Nat) % L ≠ 0))
  have hconc : thresholdSign constHash ([1].map (makeKeyPackage 5 [])) []
      (groupPublicKey 5) 1 [(2, 3)] = .ok (5, 10) := by decide
  rw [hconc] at h1
  injection Except.ok.inj h1 with hR hz
  subst hR
  subst hz
  exact ⟨hconc, h2 (by decide)⟩

end Frost
